import Mathlib

/-!
# Verification of the `goquadtree` spatial index

A shallow embedding of `quadtree.go` (package `quadtree`) and proofs of the
specification's claims about it.

Modelling conventions:
* Go `float64` coordinates are modelled as exact rationals (`ℚ`).  All
  arithmetic the code performs on coordinates (`+`, `/ 2.0`, comparisons)
  is carried out exactly.
* Go `int` is modelled as `ℤ`.
* Go nilable slices (`[]treeEntry`) are modelled as `Option (List _)`:
  `none` is the nil slice, `some l` a non-nil slice (Go's `len` of a nil
  slice is `0`, mirrored by `itemsLen`).
* Go nilable pointers (`*node`) are modelled as `Option (Node α)`.
* The opaque `interface{}` payload is a type parameter `α`.
-/

set_option linter.unusedSectionVars false

namespace Goquadtree

/-- `type Point struct { X, Y float64 }` -/
structure Point where
  x : ℚ
  y : ℚ
  deriving DecidableEq, Repr

/-- `type Rect struct { X, Y, Width, Height float64 }` -/
structure Rect where
  x : ℚ
  y : ℚ
  width : ℚ
  height : ℚ
  deriving DecidableEq, Repr

/-- `func (r *Rect) Contains(point Point) bool` — half-open containment,
mirroring the conjunction order of the source. -/
def Rect.contains (r : Rect) (p : Point) : Bool :=
  decide (p.x ≥ r.x) && decide (p.y ≥ r.y) &&
    decide (p.x < r.x + r.width) && decide (p.y < r.y + r.height)

/-- `func overlaps(r1, r2 Rect) bool` — strict inequalities on both axes,
mirroring the conjunction order of the source. -/
def overlaps (r1 r2 : Rect) : Bool :=
  decide (r1.x < r2.x + r2.width) && decide (r1.x + r1.width > r2.x) &&
    decide (r1.y + r1.height > r2.y) && decide (r1.y < r2.y + r2.height)

/-- `func (r Rect) quadrants() (ul, ur, ll, lr Rect)` — splits into four
equal quadrants. -/
def Rect.quadrants (r : Rect) : Rect × Rect × Rect × Rect :=
  let w := r.width / 2
  let h := r.height / 2
  let ll : Rect := ⟨r.x, r.y, w, h⟩
  let ul : Rect := ⟨r.x, r.y + h, w, h⟩
  let ur : Rect := ⟨r.x + w, r.y + h, w, h⟩
  let lr : Rect := ⟨r.x + w, r.y, w, h⟩
  (ul, ur, ll, lr)

/-- `const quadrantNone = -1` -/
def quadrantNone : ℤ := -1
/-- `const quadrantUpperLeft = 0` -/
def quadrantUpperLeft : ℤ := 0
/-- `const quadrantUpperRight = 1` -/
def quadrantUpperRight : ℤ := 1
/-- `const quadrantLowerLeft = 2` -/
def quadrantLowerLeft : ℤ := 2
/-- `const quadrantLowerRight = 3` -/
def quadrantLowerRight : ℤ := 3

/-- `func whichQuadrant(r Rect, p Point) int` — quadrant routing with the
tie-break `x < midX` → left half, `y < midY` → lower half. -/
def whichQuadrant (r : Rect) (p : Point) : ℤ :=
  if ¬ (r.contains p = true) then quadrantNone
  else
    let midX := r.x + r.width / 2
    let midY := r.y + r.height / 2
    if p.x < midX then
      if p.y < midY then quadrantLowerLeft else quadrantUpperLeft
    else
      if p.y < midY then quadrantLowerRight else quadrantUpperRight

/-- The rectangle of quadrant number `q` (one of the four quadrant
constants) of `r`, in the `(ul, ur, ll, lr)` order `Rect.quadrants`
returns. -/
def quadrantRect (r : Rect) (q : ℤ) : Rect :=
  if q = quadrantUpperLeft then (Rect.quadrants r).1
  else if q = quadrantUpperRight then (Rect.quadrants r).2.1
  else if q = quadrantLowerLeft then (Rect.quadrants r).2.2.1
  else (Rect.quadrants r).2.2.2

example : Rect.contains ⟨0, 0, 5, 5⟩ ⟨1, 1⟩ = true := by norm_num [Rect.contains]
example : Rect.contains ⟨0, 0, 5, 5⟩ ⟨5, 1⟩ = false := by norm_num [Rect.contains]
example : Rect.contains ⟨1, 1, 0, 0⟩ ⟨1, 1⟩ = false := by norm_num [Rect.contains]
example : overlaps ⟨0, 0, 5, 5⟩ ⟨1, 1, 0, 0⟩ = true := by norm_num [overlaps]
example : overlaps ⟨0, 0, 1, 1⟩ ⟨1, 0, 1, 1⟩ = false := by norm_num [overlaps]
example : whichQuadrant ⟨0, 0, 4, 4⟩ ⟨1, 3⟩ = quadrantUpperLeft := by
  norm_num [whichQuadrant, Rect.contains, quadrantUpperLeft]
example : whichQuadrant ⟨0, 0, 4, 4⟩ ⟨2, 2⟩ = quadrantUpperRight := by
  norm_num [whichQuadrant, Rect.contains, quadrantUpperRight]

/-- `type treeEntry struct { position Point; data interface{} }` -/
structure TreeEntry (α : Type) where
  position : Point
  data : α

/-- `type node struct` — bounds, depth, a nilable entry slice (`Option`),
and four nilable child pointers (`Option`). -/
inductive Node (α : Type) : Type where
  | mk (bounds : Rect) (depth : ℤ) (items : Option (List (TreeEntry α)))
       (ul ur ll lr : Option (Node α)) : Node α

/-- `type Quadtree struct` (the `debugAssertions` flag is dead code in the
source and is omitted). -/
structure Quadtree (α : Type) where
  maxDepth : ℤ
  maxItemsPerNode : ℤ
  root : Node α
  size : ℤ

variable {α : Type}

def Node.bounds : Node α → Rect
  | .mk b _ _ _ _ _ _ => b

def Node.depth : Node α → ℤ
  | .mk _ d _ _ _ _ _ => d

def Node.items : Node α → Option (List (TreeEntry α))
  | .mk _ _ it _ _ _ _ => it

def Node.ul : Node α → Option (Node α)
  | .mk _ _ _ ul _ _ _ => ul

def Node.ur : Node α → Option (Node α)
  | .mk _ _ _ _ ur _ _ => ur

def Node.ll : Node α → Option (Node α)
  | .mk _ _ _ _ _ ll _ => ll

def Node.lr : Node α → Option (Node α)
  | .mk _ _ _ _ _ _ lr => lr

/-- Go's `len` on the possibly-nil items slice (`len(nil) = 0`). -/
def itemsLen (items : Option (List (TreeEntry α))) : ℕ :=
  (items.getD []).length

/-- `func newNode(parent *node, bounds Rect) *node` — a fresh empty leaf one
level below `parent`. -/
def newNode (parent : Node α) (bounds : Rect) : Node α :=
  .mk bounds (parent.depth + 1) (some []) none none none none

/-- `func NewQuadtree(bounds Rect, maxDepth, maxItemsPerNode int) (*Quadtree, error)` -/
def NewQuadtree (bounds : Rect) (maxDepth maxItemsPerNode : ℤ) :
    Except String (Quadtree α) :=
  if maxDepth ≤ 0 then
    .error "Creating tree failed: maxDepth must be larger than 1"
  else if maxItemsPerNode ≤ 0 then
    .error "Creating tree failed: maxItemsPerNode must be larger than 0"
  else
    .ok { maxDepth := maxDepth
          maxItemsPerNode := maxItemsPerNode
          root := .mk bounds 0 (some []) none none none none
          size := 0 }

/-- `func (qt *Quadtree) Size() int` -/
def Quadtree.Size (qt : Quadtree α) : ℤ := qt.size

/-- `func addInternal(qt *Quadtree, node *node, item treeEntry)`, written as
a state transformer on the node.  Go's unbounded recursion is modelled with
an explicit `fuel` parameter consumed at each recursive call; `Quadtree.add`
passes a budget that is proven sufficient for every tree the public API can
build (the recursion descends at most `maxDepth` levels, alternating between
the split re-entry and a child descent, so `2*maxDepth + 1` frames suffice).
A `none` child in the descent branch is left untouched: the Go program would
dereference a nil pointer there, which the verified leaf/internal invariant
shows to be unreachable. -/
def addInternal (maxDepth maxItemsPerNode : ℤ) :
    ℕ → Node α → TreeEntry α → Node α
  | 0, n, _ => n
  | fuel + 1, .mk b d items ul ur ll lr, item =>
    let quadrant := whichQuadrant b item.position
    if quadrant = quadrantNone then
      -- The position doesn't belong to this node at all - exit.
      .mk b d items ul ur ll lr
    else if items.isSome ∧ d ≥ maxDepth then
      -- Max depth reached: store here regardless of maxItemsPerNode.
      .mk b d (some ((items.getD []) ++ [item])) ul ur ll lr
    else if (itemsLen items : ℤ) ≥ maxItemsPerNode then
      -- At capacity: split into child nodes and re-insert.
      let n := Node.mk b d items ul ur ll lr
      let q := Rect.quadrants b
      let n' := Node.mk b d none
        (some (newNode n q.1)) (some (newNode n q.2.1))
        (some (newNode n q.2.2.1)) (some (newNode n q.2.2.2))
      let n'' := (items.getD []).foldl
        (fun m i => addInternal maxDepth maxItemsPerNode fuel m i) n'
      addInternal maxDepth maxItemsPerNode fuel n'' item
    else if items.isSome then
      -- Still a leaf with spare capacity: append.
      .mk b d (some ((items.getD []) ++ [item])) ul ur ll lr
    else
      -- Internal node: recurse into the matching quadrant's child.
      if quadrant = quadrantUpperLeft then
        .mk b d items (ul.map (fun c => addInternal maxDepth maxItemsPerNode fuel c item)) ur ll lr
      else if quadrant = quadrantUpperRight then
        .mk b d items ul (ur.map (fun c => addInternal maxDepth maxItemsPerNode fuel c item)) ll lr
      else if quadrant = quadrantLowerLeft then
        .mk b d items ul ur (ll.map (fun c => addInternal maxDepth maxItemsPerNode fuel c item)) lr
      else if quadrant = quadrantLowerRight then
        .mk b d items ul ur ll (lr.map (fun c => addInternal maxDepth maxItemsPerNode fuel c item))
      else
        .mk b d items ul ur ll lr

/-- The recursion budget `Quadtree.add` hands to `addInternal`. -/
def addFuel (maxDepth : ℤ) : ℕ := 2 * maxDepth.toNat + 1

/-- `func (qt *Quadtree) Add(data interface{}, position Point) (err error)` —
returns the updated tree together with the Go error value. -/
def Quadtree.add (qt : Quadtree α) (data : α) (position : Point) :
    Quadtree α × Option String :=
  if ¬ (qt.root.bounds.contains position = true) then
    (qt, some "Add failed: position outside bounds of tree.")
  else
    let item : TreeEntry α := ⟨position, data⟩
    ({ qt with
        root := addInternal qt.maxDepth qt.maxItemsPerNode (addFuel qt.maxDepth) qt.root item
        size := qt.size + 1 },
      none)

/-- `func queryInternal(node *node, bounds Rect, consumer consumer)`,
modelled as the list of entries handed to the consumer, in traversal order.
(The source's `consumer` return value is ignored by `queryInternal`, and
`Query`'s consumer only accumulates, so the collecting model is exact.)
A `none` child contributes nothing: the Go program would dereference a nil
pointer there, unreachable under the verified leaf/internal invariant. -/
def queryInternal : Node α → Rect → List (TreeEntry α)
  | .mk b _ items ul ur ll lr, bounds =>
    if overlaps b bounds then
      match items with
      | none =>
        -- This node has no items, but it has children. Keep recursing.
        (match ul with | some c => queryInternal c bounds | none => []) ++
        (match ur with | some c => queryInternal c bounds | none => []) ++
        (match ll with | some c => queryInternal c bounds | none => []) ++
        (match lr with | some c => queryInternal c bounds | none => [])
      | some l =>
        -- An end node: re-test each item against the query bounds.
        l.filter (fun e => bounds.contains e.position)
    else []

/-- `queryInternal` lifted to a nilable child pointer (nil contributes
nothing). -/
def queryO (o : Option (Node α)) (bounds : Rect) : List (TreeEntry α) :=
  match o with
  | some c => queryInternal c bounds
  | none => []

/-- `func (qt *Quadtree) Query(bounds Rect) []interface{}` -/
def Quadtree.Query (qt : Quadtree α) (bounds : Rect) : List α :=
  (queryInternal qt.root bounds).map (fun e => e.data)

/-! ## The short-circuiting visitor (`QueryIterative`)

The repository's tests exercise a method `QueryIterative(bounds, visitor)`
whose implementation is not part of the sources available here; it is
modelled from the spec.  The visitor is allowed to carry state (type `σ`),
which subsumes the closures the tests use. -/

/-- Leaf scan with early exit: each entry is re-tested against the query
bounds; the visitor runs on qualifying entries and a `false` return stops
the scan.  Part of the spec-model of `QueryIterative`. -/
def visitItems {σ : Type} (f : σ → α → Point → σ × Bool) (bounds : Rect) :
    List (TreeEntry α) → σ → σ × Bool
  | [], s => (s, true)
  | e :: t, s =>
    if bounds.contains e.position then
      let r := f s e.data e.position
      if r.2 then visitItems f bounds t r.1 else (r.1, false)
    else visitItems f bounds t s

/-- Modelled from the spec: `queryVisit` / `QueryIterative`'s recursive
traversal (spec §4.4), whose implementation is not among the available
sources (only its tests are).  Same pruning (`overlaps`) and per-entry
containment re-test as `queryInternal`, same `ul, ur, ll, lr` child order,
with a propagated continue/stop boolean providing the global early exit. -/
def queryVisit {σ : Type} (f : σ → α → Point → σ × Bool) :
    Node α → Rect → σ → σ × Bool
  | .mk b _ items ul ur ll lr, bounds, s =>
    if overlaps b bounds then
      match items with
      | none =>
        let r1 := match ul with | some c => queryVisit f c bounds s | none => (s, true)
        if r1.2 then
          let r2 := match ur with | some c => queryVisit f c bounds r1.1 | none => (r1.1, true)
          if r2.2 then
            let r3 := match ll with | some c => queryVisit f c bounds r2.1 | none => (r2.1, true)
            if r3.2 then
              match lr with | some c => queryVisit f c bounds r3.1 | none => (r3.1, true)
            else r3
          else r2
        else r1
      | some l => visitItems f bounds l s
    else (s, true)

/-- `queryVisit` lifted to a nilable child pointer. -/
def queryVisitO {σ : Type} (f : σ → α → Point → σ × Bool)
    (o : Option (Node α)) (bounds : Rect) (s : σ) : σ × Bool :=
  match o with
  | some c => queryVisit f c bounds s
  | none => (s, true)

/-- Modelled from the spec: the public `QueryIterative` entry point, §4.4.
Returns the final visitor state and whether the traversal ran to
completion. -/
def Quadtree.QueryIterative {σ : Type} (qt : Quadtree α) (bounds : Rect)
    (f : σ → α → Point → σ × Bool) (s : σ) : σ × Bool :=
  queryVisit f qt.root bounds s

/-! ## Verification-layer definitions -/

/-- The entries of a subtree, in the `ul, ur, ll, lr` traversal order used
by both query functions. -/
def entries : Node α → List (TreeEntry α)
  | .mk _ _ (some l) _ _ _ _ => l
  | .mk _ _ none ul ur ll lr =>
    (match ul with | some c => entries c | none => []) ++
    (match ur with | some c => entries c | none => []) ++
    (match ll with | some c => entries c | none => []) ++
    (match lr with | some c => entries c | none => [])

/-- `entries` lifted to a nilable child pointer. -/
def entriesO (o : Option (Node α)) : List (TreeEntry α) :=
  match o with
  | some c => entries c
  | none => []

/-- The leaf nodes of a subtree (nodes with a non-nil items slice), in
traversal order. -/
def leavesList : Node α → List (Node α)
  | .mk b d (some l) ul ur ll lr => [.mk b d (some l) ul ur ll lr]
  | .mk _ _ none ul ur ll lr =>
    (match ul with | some c => leavesList c | none => []) ++
    (match ur with | some c => leavesList c | none => []) ++
    (match ll with | some c => leavesList c | none => []) ++
    (match lr with | some c => leavesList c | none => [])

/-- `leavesList` lifted to a nilable child pointer. -/
def leavesO (o : Option (Node α)) : List (Node α) :=
  match o with
  | some c => leavesList c
  | none => []

/-- Well-formedness of a node of a tree with parameters `D` (max depth) and
`M` (max items per node): a node is either a leaf — non-nil items, all four
children nil, every stored position inside the node's bounds, depth at most
`D` — or internal — nil items, all four children present, with the exact
quadrant bounds, depth one greater, and recursively well-formed. -/
def WF (D M : ℤ) : Node α → Prop
  | .mk b d (some l) ul ur ll lr =>
      d ≤ D ∧ ul = none ∧ ur = none ∧ ll = none ∧ lr = none ∧
      ∀ e ∈ l, Rect.contains b e.position = true
  | .mk b d none ul ur ll lr =>
      d < D ∧
      (match ul with
       | some c => c.bounds = (Rect.quadrants b).1 ∧ c.depth = d + 1 ∧ WF D M c
       | none => False) ∧
      (match ur with
       | some c => c.bounds = (Rect.quadrants b).2.1 ∧ c.depth = d + 1 ∧ WF D M c
       | none => False) ∧
      (match ll with
       | some c => c.bounds = (Rect.quadrants b).2.2.1 ∧ c.depth = d + 1 ∧ WF D M c
       | none => False) ∧
      (match lr with
       | some c => c.bounds = (Rect.quadrants b).2.2.2 ∧ c.depth = d + 1 ∧ WF D M c
       | none => False)

/-- The well-formedness requirement on one child slot of an internal node:
present, with the given bounds and depth, and recursively well-formed. -/
def WFchild (D M : ℤ) (r : Rect) (d : ℤ) : Option (Node α) → Prop
  | some c => c.bounds = r ∧ c.depth = d ∧ WF D M c
  | none => False

/-- A node is a leaf (non-nil items, all four child references unset) or
internal (nil items, all four child references set), recursively — the
mutual-exclusivity invariant of claim C8, with no geometric content. -/
def LeafXorInternal : Node α → Prop
  | .mk _ _ (some _) ul ur ll lr =>
      ul = none ∧ ur = none ∧ ll = none ∧ lr = none
  | .mk _ _ none ul ur ll lr =>
      (match ul with | some c => LeafXorInternal c | none => False) ∧
      (match ur with | some c => LeafXorInternal c | none => False) ∧
      (match ll with | some c => LeafXorInternal c | none => False) ∧
      (match lr with | some c => LeafXorInternal c | none => False)

/-- `LeafXorInternal` on one child slot of an internal node (which must be
present). -/
def LXIchild : Option (Node α) → Prop
  | some c => LeafXorInternal c
  | none => False

/-- `preservesInternal n n'`: every node that is internal in `n` is still
internal at the same place in `n'` — the "leaf→internal is one-way"
half of claim C8. -/
def preservesInternal : Node α → Node α → Prop
  | .mk _ _ none ul ur ll lr, .mk _ _ items' ul' ur' ll' lr' =>
      items' = none ∧
      (match ul, ul' with
       | some c, some c' => preservesInternal c c' | some _, none => False | none, _ => True) ∧
      (match ur, ur' with
       | some c, some c' => preservesInternal c c' | some _, none => False | none, _ => True) ∧
      (match ll, ll' with
       | some c, some c' => preservesInternal c c' | some _, none => False | none, _ => True) ∧
      (match lr, lr' with
       | some c, some c' => preservesInternal c c' | some _, none => False | none, _ => True)
  | .mk _ _ (some _) _ _ _ _, _ => True

/-- `preservesInternal` on a pair of child slots. -/
def presO : Option (Node α) → Option (Node α) → Prop
  | some c, some c' => preservesInternal c c'
  | some _, none => False
  | none, _ => True

/-- Region inclusion of rectangles (as half-open point sets). -/
def regionSub (r1 r2 : Rect) : Prop :=
  ∀ p : Point, r1.contains p = true → r2.contains p = true

/-- The structural invariant of claim C10: every entry lies in a leaf whose
bounds contain its position, and every child's bounds region is included in
its parent's. -/
def StructuralInv : Node α → Prop
  | .mk b _ (some l) _ _ _ _ => ∀ e ∈ l, Rect.contains b e.position = true
  | .mk b _ none ul ur ll lr =>
      (match ul with | some c => regionSub c.bounds b ∧ StructuralInv c | none => True) ∧
      (match ur with | some c => regionSub c.bounds b ∧ StructuralInv c | none => True) ∧
      (match ll with | some c => regionSub c.bounds b ∧ StructuralInv c | none => True) ∧
      (match lr with | some c => regionSub c.bounds b ∧ StructuralInv c | none => True)

/-- `StructuralInv` on one child slot, together with the region inclusion
of its bounds in the parent's. -/
def SIchild (b : Rect) : Option (Node α) → Prop
  | some c => regionSub c.bounds b ∧ StructuralInv c
  | none => True

/-- Fuel needed by `addInternal` on a well-formed node (proved in
`addInternal_main`). -/
def need (D : ℤ) (n : Node α) : ℕ :=
  2 * (D - n.depth).toNat + (if n.items.isSome then 1 else 0)

/-- A sequence of `Add` calls, applied left to right (errors ignored, as
the rejected calls leave the tree untouched). -/
def applyAll (qt : Quadtree α) (reqs : List (α × Point)) : Quadtree α :=
  reqs.foldl (fun qt r => (qt.add r.1 r.2).1) qt

/-- Trees reachable through the public API: a successful `NewQuadtree`
followed by any sequence of `Add` calls.  `Query`, `QueryIterative` and
`Size` do not modify the tree (they are pure functions in this model), so
they do not appear as steps. -/
inductive Reachable : Quadtree α → Prop where
  | new {bounds : Rect} {maxDepth maxItemsPerNode : ℤ} {qt : Quadtree α}
      (h : NewQuadtree bounds maxDepth maxItemsPerNode = .ok qt) : Reachable qt
  | add {qt : Quadtree α} (data : α) (position : Point)
      (h : Reachable qt) : Reachable (qt.add data position).1

/-- An empty leaf, as `newNode` creates them. -/
def emptyLeaf (b : Rect) (d : ℤ) : Node α :=
  .mk b d (some []) none none none none

/-- The tree produced by repeatedly inserting at one point `p`: a chain of
`k` internal nodes following `p`'s quadrant, three empty sibling leaves at
each level, and a single leaf holding `l` at the bottom. -/
def pchain (p : Point) (l : List (TreeEntry α)) : ℕ → Rect → ℤ → Node α
  | 0, b, d => .mk b d (some l) none none none none
  | k + 1, b, d =>
    let q := Rect.quadrants b
    let w := whichQuadrant b p
    Node.mk b d none
      (some (if w = quadrantUpperLeft then pchain p l k q.1 (d + 1)
             else emptyLeaf q.1 (d + 1)))
      (some (if w = quadrantUpperRight then pchain p l k q.2.1 (d + 1)
             else emptyLeaf q.2.1 (d + 1)))
      (some (if w = quadrantLowerLeft then pchain p l k q.2.2.1 (d + 1)
             else emptyLeaf q.2.2.1 (d + 1)))
      (some (if w = quadrantLowerRight then pchain p l k q.2.2.2 (d + 1)
             else emptyLeaf q.2.2.2 (d + 1)))

/-- What one `addInternal` call guarantees on a well-formed node whose
bounds contain the inserted position (proved in `addInternal_main`):
well-formedness is preserved, the node keeps its bounds, depth and
internal-ness, the subtree gains exactly the inserted entry, and no
internal node reverts to a leaf. -/
structure AddSpec (D M : ℤ) (n n' : Node α) (e : TreeEntry α) : Prop where
  wf : WF D M n'
  bounds : n'.bounds = n.bounds
  depth : n'.depth = n.depth
  itemsNone : n.items = none → n'.items = none
  perm : (entries n').Perm (e :: entries n)
  pres : preservesInternal n n'

/-- The invariant maintained by every tree the public API can produce. -/
structure TreeInv (qt : Quadtree α) : Prop where
  hM : 1 ≤ qt.maxItemsPerNode
  hD : 1 ≤ qt.maxDepth
  hdepth0 : qt.root.depth = 0
  hwf : WF qt.maxDepth qt.maxItemsPerNode qt.root

/-- The shape of a tree that has only ever received insertions at the one
point `p`: a single root leaf while at most `M` entries are stored, and a
`pchain` of full depth afterwards. -/
def samePosState (D M : ℤ) (b : Rect) (p : Point)
    (l : List (TreeEntry α)) (sz : ℤ) : Quadtree α :=
  if (l.length : ℤ) ≤ M then
    ⟨D, M, .mk b 0 (some l) none none none none, sz⟩
  else
    ⟨D, M, pchain p l D.toNat b 0, sz⟩

/-- The fold `stopFold f l s` over a list with early exit: the flat-list
specification of the short-circuiting traversal. -/
def stopFold {σ : Type} (f : σ → α → Point → σ × Bool) :
    List (TreeEntry α) → σ → σ × Bool
  | [], s => (s, true)
  | e :: t, s =>
    let r := f s e.data e.position
    if r.2 then stopFold f t r.1 else (r.1, false)

/-! ## Induction principle for the nested `Node` type -/

theorem Node.induction {α : Type} {motive : Node α → Prop}
    (h : ∀ b d items ul ur ll lr,
      (∀ c, ul = some c → motive c) → (∀ c, ur = some c → motive c) →
      (∀ c, ll = some c → motive c) → (∀ c, lr = some c → motive c) →
      motive (Node.mk b d items ul ur ll lr)) :
    ∀ n : Node α, motive n
  | .mk b d items ul ur ll lr =>
    h b d items ul ur ll lr
      (fun c hc => Node.induction h c)
      (fun c hc => Node.induction h c)
      (fun c hc => Node.induction h c)
      (fun c hc => Node.induction h c)
termination_by n => sizeOf n
decreasing_by
  all_goals subst hc
  all_goals simp
  all_goals omega

/-! ## Equation lemmas for the nested-recursive definitions -/

theorem queryInternal_leaf {α : Type} (b : Rect) (d : ℤ) (l : List (TreeEntry α))
    (ul ur ll lr : Option (Node α)) (q : Rect) :
    queryInternal (.mk b d (some l) ul ur ll lr) q =
      if overlaps b q then l.filter (fun e => q.contains e.position) else [] := rfl

theorem queryInternal_internal {α : Type} (b : Rect) (d : ℤ)
    (ul ur ll lr : Option (Node α)) (q : Rect) :
    queryInternal (.mk b d none ul ur ll lr) q =
      if overlaps b q then
        queryO ul q ++ queryO ur q ++ queryO ll q ++ queryO lr q
      else [] := by
  cases ul <;> cases ur <;> cases ll <;> cases lr <;> rfl

theorem entries_leaf {α : Type} (b : Rect) (d : ℤ) (l : List (TreeEntry α))
    (ul ur ll lr : Option (Node α)) :
    entries (.mk b d (some l) ul ur ll lr) = l := rfl

theorem entries_internal {α : Type} (b : Rect) (d : ℤ)
    (ul ur ll lr : Option (Node α)) :
    entries (.mk b d none ul ur ll lr) =
      entriesO ul ++ entriesO ur ++ entriesO ll ++ entriesO lr := by
  cases ul <;> cases ur <;> cases ll <;> cases lr <;> rfl

theorem leavesList_leaf {α : Type} (b : Rect) (d : ℤ) (l : List (TreeEntry α))
    (ul ur ll lr : Option (Node α)) :
    leavesList (.mk b d (some l) ul ur ll lr) = [.mk b d (some l) ul ur ll lr] := rfl

theorem leavesList_internal {α : Type} (b : Rect) (d : ℤ)
    (ul ur ll lr : Option (Node α)) :
    leavesList (.mk b d none ul ur ll lr) =
      leavesO ul ++ leavesO ur ++ leavesO ll ++ leavesO lr := by
  cases ul <;> cases ur <;> cases ll <;> cases lr <;> rfl

theorem WF_leaf {α : Type} (D M : ℤ) (b : Rect) (d : ℤ) (l : List (TreeEntry α))
    (ul ur ll lr : Option (Node α)) :
    WF D M (Node.mk b d (some l) ul ur ll lr) =
      (d ≤ D ∧ ul = none ∧ ur = none ∧ ll = none ∧ lr = none ∧
        ∀ e ∈ l, Rect.contains b e.position = true) := rfl

theorem WF_internal {α : Type} (D M : ℤ) (b : Rect) (d : ℤ)
    (ul ur ll lr : Option (Node α)) :
    WF D M (Node.mk b d none ul ur ll lr) =
      (d < D ∧
        WFchild D M (Rect.quadrants b).1 (d + 1) ul ∧
        WFchild D M (Rect.quadrants b).2.1 (d + 1) ur ∧
        WFchild D M (Rect.quadrants b).2.2.1 (d + 1) ll ∧
        WFchild D M (Rect.quadrants b).2.2.2 (d + 1) lr) := by
  cases ul <;> cases ur <;> cases ll <;> cases lr <;> rfl

theorem LeafXorInternal_leaf {α : Type} (b : Rect) (d : ℤ)
    (l : List (TreeEntry α)) (ul ur ll lr : Option (Node α)) :
    LeafXorInternal (Node.mk b d (some l) ul ur ll lr) =
      (ul = none ∧ ur = none ∧ ll = none ∧ lr = none) := rfl

theorem LeafXorInternal_internal {α : Type} (b : Rect) (d : ℤ)
    (ul ur ll lr : Option (Node α)) :
    LeafXorInternal (Node.mk b d none ul ur ll lr) =
      (LXIchild ul ∧ LXIchild ur ∧ LXIchild ll ∧ LXIchild lr) := by
  cases ul <;> cases ur <;> cases ll <;> cases lr <;> rfl

theorem preservesInternal_leaf {α : Type} (b : Rect) (d : ℤ)
    (l : List (TreeEntry α)) (ul ur ll lr : Option (Node α)) (n' : Node α) :
    preservesInternal (Node.mk b d (some l) ul ur ll lr) n' = True := by
  cases n' <;> rfl

theorem preservesInternal_internal {α : Type} (b : Rect) (d : ℤ)
    (ul ur ll lr : Option (Node α)) (b' : Rect) (d' : ℤ)
    (items' : Option (List (TreeEntry α))) (ul' ur' ll' lr' : Option (Node α)) :
    preservesInternal (Node.mk b d none ul ur ll lr)
        (Node.mk b' d' items' ul' ur' ll' lr') =
      (items' = none ∧ presO ul ul' ∧ presO ur ur' ∧ presO ll ll' ∧ presO lr lr') := by
  cases ul <;> cases ur <;> cases ll <;> cases lr <;>
    cases ul' <;> cases ur' <;> cases ll' <;> cases lr' <;> rfl

theorem StructuralInv_leaf {α : Type} (b : Rect) (d : ℤ)
    (l : List (TreeEntry α)) (ul ur ll lr : Option (Node α)) :
    StructuralInv (Node.mk b d (some l) ul ur ll lr) =
      (∀ e ∈ l, Rect.contains b e.position = true) := rfl

theorem StructuralInv_internal {α : Type} (b : Rect) (d : ℤ)
    (ul ur ll lr : Option (Node α)) :
    StructuralInv (Node.mk b d none ul ur ll lr) =
      (SIchild b ul ∧ SIchild b ur ∧ SIchild b ll ∧ SIchild b lr) := by
  cases ul <;> cases ur <;> cases ll <;> cases lr <;> rfl

theorem queryVisit_leaf {α σ : Type} (f : σ → α → Point → σ × Bool)
    (b : Rect) (d : ℤ) (l : List (TreeEntry α))
    (ul ur ll lr : Option (Node α)) (q : Rect) (s : σ) :
    queryVisit f (.mk b d (some l) ul ur ll lr) q s =
      if overlaps b q then visitItems f q l s else (s, true) := rfl

theorem queryVisit_internal {α σ : Type} (f : σ → α → Point → σ × Bool)
    (b : Rect) (d : ℤ) (ul ur ll lr : Option (Node α)) (q : Rect) (s : σ) :
    queryVisit f (.mk b d none ul ur ll lr) q s =
      (if overlaps b q then
        let r1 := queryVisitO f ul q s
        if r1.2 then
          let r2 := queryVisitO f ur q r1.1
          if r2.2 then
            let r3 := queryVisitO f ll q r2.1
            if r3.2 then queryVisitO f lr q r3.1
            else r3
          else r2
        else r1
      else (s, true)) := by
  cases ul <;> cases ur <;> cases ll <;> cases lr <;> rfl

theorem addInternal_zero {α : Type} (D M : ℤ) (n : Node α) (e : TreeEntry α) :
    addInternal D M 0 n e = n := rfl

theorem addInternal_succ {α : Type} (D M : ℤ) (fuel : ℕ) (b : Rect) (d : ℤ)
    (items : Option (List (TreeEntry α))) (ul ur ll lr : Option (Node α))
    (e : TreeEntry α) :
    addInternal D M (fuel + 1) (.mk b d items ul ur ll lr) e =
      (if whichQuadrant b e.position = quadrantNone then
        .mk b d items ul ur ll lr
      else if items.isSome ∧ d ≥ D then
        .mk b d (some ((items.getD []) ++ [e])) ul ur ll lr
      else if (itemsLen items : ℤ) ≥ M then
        addInternal D M fuel
          ((items.getD []).foldl (fun m i => addInternal D M fuel m i)
            (Node.mk b d none
              (some (newNode (.mk b d items ul ur ll lr) (Rect.quadrants b).1))
              (some (newNode (.mk b d items ul ur ll lr) (Rect.quadrants b).2.1))
              (some (newNode (.mk b d items ul ur ll lr) (Rect.quadrants b).2.2.1))
              (some (newNode (.mk b d items ul ur ll lr) (Rect.quadrants b).2.2.2))))
          e
      else if items.isSome then
        .mk b d (some ((items.getD []) ++ [e])) ul ur ll lr
      else if whichQuadrant b e.position = quadrantUpperLeft then
        .mk b d items (ul.map (fun c => addInternal D M fuel c e)) ur ll lr
      else if whichQuadrant b e.position = quadrantUpperRight then
        .mk b d items ul (ur.map (fun c => addInternal D M fuel c e)) ll lr
      else if whichQuadrant b e.position = quadrantLowerLeft then
        .mk b d items ul ur (ll.map (fun c => addInternal D M fuel c e)) lr
      else if whichQuadrant b e.position = quadrantLowerRight then
        .mk b d items ul ur ll (lr.map (fun c => addInternal D M fuel c e))
      else
        .mk b d items ul ur ll lr) := rfl

/-! ## Geometry lemmas -/

theorem Rect.contains_iff (r : Rect) (p : Point) :
    r.contains p = true ↔
      r.x ≤ p.x ∧ p.x < r.x + r.width ∧ r.y ≤ p.y ∧ p.y < r.y + r.height := by
  simp only [Rect.contains, Bool.and_eq_true, decide_eq_true_eq, ge_iff_le]
  tauto

theorem Rect.contains_eq_false_of_degenerate {r : Rect} (p : Point)
    (h : r.width = 0 ∨ r.height = 0) : r.contains p = false := by
  rw [← Bool.not_eq_true, Rect.contains_iff]
  rintro ⟨h1, h2, h3, h4⟩
  rcases h with h | h <;> linarith

theorem overlaps_iff (r1 r2 : Rect) :
    overlaps r1 r2 = true ↔
      r1.x < r2.x + r2.width ∧ r2.x < r1.x + r1.width ∧
      r1.y < r2.y + r2.height ∧ r2.y < r1.y + r1.height := by
  simp only [overlaps, Bool.and_eq_true, decide_eq_true_eq, gt_iff_lt]
  tauto

theorem overlaps_of_common_point {r1 r2 : Rect} {p : Point}
    (h1 : r1.contains p = true) (h2 : r2.contains p = true) :
    overlaps r1 r2 = true := by
  rw [Rect.contains_iff] at h1 h2
  obtain ⟨a1, a2, a3, a4⟩ := h1
  obtain ⟨b1, b2, b3, b4⟩ := h2
  rw [overlaps_iff]
  refine ⟨by linarith, by linarith, by linarith, by linarith⟩

theorem quadrants_explicit (r : Rect) :
    Rect.quadrants r =
      (⟨r.x, r.y + r.height / 2, r.width / 2, r.height / 2⟩,
       ⟨r.x + r.width / 2, r.y + r.height / 2, r.width / 2, r.height / 2⟩,
       ⟨r.x, r.y, r.width / 2, r.height / 2⟩,
       ⟨r.x + r.width / 2, r.y, r.width / 2, r.height / 2⟩) := rfl

theorem regionSub_quadrant_ul (r : Rect) : regionSub (Rect.quadrants r).1 r := by
  intro p hp
  rw [quadrants_explicit] at hp
  rw [Rect.contains_iff] at hp ⊢
  obtain ⟨h1, h2, h3, h4⟩ := hp
  simp only at h1 h2 h3 h4
  refine ⟨by linarith, by linarith, by linarith, by linarith⟩

theorem regionSub_quadrant_ur (r : Rect) : regionSub (Rect.quadrants r).2.1 r := by
  intro p hp
  rw [quadrants_explicit] at hp
  rw [Rect.contains_iff] at hp ⊢
  obtain ⟨h1, h2, h3, h4⟩ := hp
  simp only at h1 h2 h3 h4
  refine ⟨by linarith, by linarith, by linarith, by linarith⟩

theorem regionSub_quadrant_ll (r : Rect) : regionSub (Rect.quadrants r).2.2.1 r := by
  intro p hp
  rw [quadrants_explicit] at hp
  rw [Rect.contains_iff] at hp ⊢
  obtain ⟨h1, h2, h3, h4⟩ := hp
  simp only at h1 h2 h3 h4
  refine ⟨by linarith, by linarith, by linarith, by linarith⟩

theorem regionSub_quadrant_lr (r : Rect) : regionSub (Rect.quadrants r).2.2.2 r := by
  intro p hp
  rw [quadrants_explicit] at hp
  rw [Rect.contains_iff] at hp ⊢
  obtain ⟨h1, h2, h3, h4⟩ := hp
  simp only at h1 h2 h3 h4
  refine ⟨by linarith, by linarith, by linarith, by linarith⟩

theorem whichQuadrant_cases (r : Rect) (p : Point) (h : r.contains p = true) :
    (whichQuadrant r p = quadrantLowerLeft ∧
        p.x < r.x + r.width / 2 ∧ p.y < r.y + r.height / 2) ∨
    (whichQuadrant r p = quadrantUpperLeft ∧
        p.x < r.x + r.width / 2 ∧ ¬(p.y < r.y + r.height / 2)) ∨
    (whichQuadrant r p = quadrantLowerRight ∧
        ¬(p.x < r.x + r.width / 2) ∧ p.y < r.y + r.height / 2) ∨
    (whichQuadrant r p = quadrantUpperRight ∧
        ¬(p.x < r.x + r.width / 2) ∧ ¬(p.y < r.y + r.height / 2)) := by
  by_cases hx : p.x < r.x + r.width / 2 <;>
    by_cases hy : p.y < r.y + r.height / 2 <;>
      simp [whichQuadrant, h, hx, hy]

theorem whichQuadrant_ne_none (r : Rect) (p : Point) (h : r.contains p = true) :
    whichQuadrant r p ≠ quadrantNone := by
  rcases whichQuadrant_cases r p h with ⟨hw, _⟩ | ⟨hw, _⟩ | ⟨hw, _⟩ | ⟨hw, _⟩ <;>
    rw [hw] <;>
      norm_num [quadrantNone, quadrantLowerLeft, quadrantUpperLeft,
        quadrantLowerRight, quadrantUpperRight]

theorem contains_explicit (rx ry w h : ℚ) (p : Point)
    (h1 : rx ≤ p.x) (h2 : p.x < rx + w) (h3 : ry ≤ p.y) (h4 : p.y < ry + h) :
    (Rect.mk rx ry w h).contains p = true := by
  rw [Rect.contains_iff]; exact ⟨h1, h2, h3, h4⟩

theorem quadrantRect_ul (r : Rect) :
    quadrantRect r quadrantUpperLeft =
      ⟨r.x, r.y + r.height / 2, r.width / 2, r.height / 2⟩ := by
  norm_num [quadrantRect, quadrantUpperLeft, quadrantUpperRight,
    quadrantLowerLeft, quadrantLowerRight, quadrants_explicit]

theorem quadrantRect_ur (r : Rect) :
    quadrantRect r quadrantUpperRight =
      ⟨r.x + r.width / 2, r.y + r.height / 2, r.width / 2, r.height / 2⟩ := by
  norm_num [quadrantRect, quadrantUpperLeft, quadrantUpperRight,
    quadrantLowerLeft, quadrantLowerRight, quadrants_explicit]

theorem quadrantRect_ll (r : Rect) :
    quadrantRect r quadrantLowerLeft =
      ⟨r.x, r.y, r.width / 2, r.height / 2⟩ := by
  norm_num [quadrantRect, quadrantUpperLeft, quadrantUpperRight,
    quadrantLowerLeft, quadrantLowerRight, quadrants_explicit]

theorem quadrantRect_lr (r : Rect) :
    quadrantRect r quadrantLowerRight =
      ⟨r.x + r.width / 2, r.y, r.width / 2, r.height / 2⟩ := by
  norm_num [quadrantRect, quadrantUpperLeft, quadrantUpperRight,
    quadrantLowerLeft, quadrantLowerRight, quadrants_explicit]

theorem contains_quadrantRect (r : Rect) (p : Point) (h : r.contains p = true) :
    (quadrantRect r (whichQuadrant r p)).contains p = true := by
  have hc := h
  rw [Rect.contains_iff] at hc
  obtain ⟨a1, a2, a3, a4⟩ := hc
  rcases whichQuadrant_cases r p h
    with ⟨hw, hx, hy⟩ | ⟨hw, hx, hy⟩ | ⟨hw, hx, hy⟩ | ⟨hw, hx, hy⟩ <;> rw [hw]
  · rw [quadrantRect_ll]
    exact contains_explicit _ _ _ _ _ (by linarith) (by linarith) (by linarith) (by linarith)
  · rw [quadrantRect_ul]
    exact contains_explicit _ _ _ _ _ (by linarith) (by linarith) (by linarith) (by linarith)
  · rw [quadrantRect_lr]
    exact contains_explicit _ _ _ _ _ (by linarith) (by linarith) (by linarith) (by linarith)
  · rw [quadrantRect_ur]
    exact contains_explicit _ _ _ _ _ (by linarith) (by linarith) (by linarith) (by linarith)

theorem quadrantRect_contains_imp (r : Rect) (p : Point) (h : r.contains p = true)
    (q : ℤ)
    (hq : q = quadrantUpperLeft ∨ q = quadrantUpperRight ∨
      q = quadrantLowerLeft ∨ q = quadrantLowerRight)
    (hcq : (quadrantRect r q).contains p = true) : q = whichQuadrant r p := by
  rcases hq with rfl | rfl | rfl | rfl <;>
    [rw [quadrantRect_ul] at hcq; rw [quadrantRect_ur] at hcq;
     rw [quadrantRect_ll] at hcq; rw [quadrantRect_lr] at hcq] <;>
    rw [Rect.contains_iff] at hcq <;>
    obtain ⟨c1, c2, c3, c4⟩ := hcq <;>
    dsimp only at c1 c2 c3 c4 <;>
    rcases whichQuadrant_cases r p h
      with ⟨hw, hx, hy⟩ | ⟨hw, hx, hy⟩ | ⟨hw, hx, hy⟩ | ⟨hw, hx, hy⟩ <;>
    rw [hw] <;>
    first
      | rfl
      | (exfalso; linarith)

/-- C3.  `Contains` is the half-open membership test
`r.x ≤ p.x < r.x + width ∧ r.y ≤ p.y < r.y + height`; a rectangle of zero
width or zero height contains no point. -/
theorem contains_characterization (r : Rect) (p : Point) :
    (r.contains p = true ↔
      r.x ≤ p.x ∧ p.x < r.x + r.width ∧ r.y ≤ p.y ∧ p.y < r.y + r.height) ∧
    ((r.width = 0 ∨ r.height = 0) → r.contains p = false) :=
  ⟨Rect.contains_iff r p, fun h => Rect.contains_eq_false_of_degenerate p h⟩

/-- Witness for C3 at a concrete input: the zero-width rectangle
`(0,0)×(0,5)` does not contain its own corner `(0,0)`. -/
theorem contains_characterization_witness :
    Rect.contains ⟨0, 0, 0, 5⟩ ⟨0, 0⟩ = false :=
  (contains_characterization ⟨0, 0, 0, 5⟩ ⟨0, 0⟩).2 (Or.inl rfl)

/-- C5.  `NewQuadtree` fails exactly when `maxDepth < 1` or
`maxItemsPerNode < 1`; on success the tree has the requested parameters,
size `0`, and a root that is a single empty leaf at depth `0` with exactly
the given bounds. -/
theorem newQuadtree_validation (α : Type) (bounds : Rect) (maxDepth maxItemsPerNode : ℤ) :
    ((∃ msg, NewQuadtree (α := α) bounds maxDepth maxItemsPerNode = .error msg) ↔
      maxDepth < 1 ∨ maxItemsPerNode < 1) ∧
    (∀ qt : Quadtree α, NewQuadtree bounds maxDepth maxItemsPerNode = .ok qt →
      qt.root = Node.mk bounds 0 (some []) none none none none ∧
      qt.Size = 0 ∧ qt.maxDepth = maxDepth ∧ qt.maxItemsPerNode = maxItemsPerNode) := by
  constructor
  · unfold NewQuadtree
    split_ifs with h1 h2 <;> simp <;> omega
  · intro qt hqt
    unfold NewQuadtree at hqt
    split_ifs at hqt with h1 h2
    cases hqt
    exact ⟨rfl, rfl, rfl, rfl⟩

/-- Witness for C5: the configuration from the repository's tests,
`NewQuadtree(Rect{0,0,1,1}, 5, 10)`, succeeds with an empty root leaf. -/
theorem newQuadtree_validation_witness :
    ∃ qt : Quadtree ℕ, NewQuadtree ⟨0, 0, 1, 1⟩ 5 10 = .ok qt ∧
      qt.root = Node.mk ⟨0, 0, 1, 1⟩ 0 (some []) none none none none ∧
      qt.Size = 0 := by
  refine ⟨_, rfl, ?_⟩
  have h := (newQuadtree_validation ℕ ⟨0, 0, 1, 1⟩ 5 10).2 _ rfl
  exact ⟨h.1, h.2.1⟩

/-- C9.  The defensive `quadrantNone` branch is unreachable for in-bounds
positions: whenever `r` contains `p`, `whichQuadrant` does not return
`quadrantNone`, the quadrant it picks contains `p`, and it is the only one
of the four quadrants of `r` that does — the quadrant partition is exact
and gap-free under the `x < midX` → left / `y < midY` → lower tie-break,
so no entry is silently discarded by the no-op branch. -/
theorem quadrant_partition_exact (r : Rect) (p : Point) (h : r.contains p = true) :
    whichQuadrant r p ≠ quadrantNone ∧
    (quadrantRect r (whichQuadrant r p)).contains p = true ∧
    (∀ q : ℤ, (q = quadrantUpperLeft ∨ q = quadrantUpperRight ∨
        q = quadrantLowerLeft ∨ q = quadrantLowerRight) →
      ((quadrantRect r q).contains p = true ↔ q = whichQuadrant r p)) :=
  ⟨whichQuadrant_ne_none r p h, contains_quadrantRect r p h,
    fun q hq =>
      ⟨fun hcq => quadrantRect_contains_imp r p h q hq hcq,
       fun heq => heq ▸ contains_quadrantRect r p h⟩⟩

/-- Witness for C9 at a concrete input: point `(1,3)` in `(0,0)×(4,4)`
lands in the upper-left quadrant and in no other. -/
theorem quadrant_partition_exact_witness :
    whichQuadrant ⟨0, 0, 4, 4⟩ ⟨1, 3⟩ ≠ quadrantNone ∧
    (quadrantRect ⟨0, 0, 4, 4⟩ (whichQuadrant ⟨0, 0, 4, 4⟩ ⟨1, 3⟩)).contains ⟨1, 3⟩ = true := by
  have h := quadrant_partition_exact ⟨0, 0, 4, 4⟩ ⟨1, 3⟩ (by norm_num [Rect.contains])
  exact ⟨h.1, h.2.1⟩

theorem queryInternal_degenerate_nil {α : Type} (q : Rect)
    (hq : q.width = 0 ∨ q.height = 0) :
    ∀ n : Node α, queryInternal n q = [] := by
  intro n
  induction n using Node.induction with
  | h b d items ul ur ll lr ihul ihur ihll ihlr =>
    cases items with
    | some l =>
      rw [queryInternal_leaf]
      split
      · refine List.filter_eq_nil_iff.mpr fun e _ => ?_
        simp [Rect.contains_eq_false_of_degenerate e.position hq]
      · rfl
    | none =>
      rw [queryInternal_internal]
      split
      · cases ul <;> cases ur <;> cases ll <;> cases lr <;> simp_all [queryO]
      · rfl

/-- C7 counterexample: the claim "a zero-width or zero-height query
rectangle overlaps nothing" is false — the code's `overlaps` test reports
the zero-area rectangle at `(1,1)` as overlapping the node bounds
`(0,0)×(5,5)`. -/
theorem overlaps_zero_area_counterexample :
    (Rect.mk 1 1 0 0).width = 0 ∧ overlaps ⟨0, 0, 5, 5⟩ ⟨1, 1, 0, 0⟩ = true :=
  ⟨rfl, by norm_num [overlaps]⟩

/-- C7 (amended).  The overlap test returns true iff each rectangle's start
is strictly below the other's end on both axes, so rectangles that merely
touch on an edge do not overlap.  A zero-width or zero-height query
rectangle can still overlap node bounds (so nodes may be visited), but
every query with such a rectangle yields zero results, because each entry
is re-tested with the half-open containment test, which no point passes. -/
theorem overlaps_characterization (α : Type) (r1 r2 : Rect) :
    (overlaps r1 r2 = true ↔
      r1.x < r2.x + r2.width ∧ r2.x < r1.x + r1.width ∧
      r1.y < r2.y + r2.height ∧ r2.y < r1.y + r1.height) ∧
    (∀ (n : Node α) (q : Rect), (q.width = 0 ∨ q.height = 0) →
      queryInternal n q = []) ∧
    (∀ (qt : Quadtree α) (q : Rect), (q.width = 0 ∨ q.height = 0) →
      qt.Query q = []) :=
  ⟨overlaps_iff r1 r2,
   fun n q hq => queryInternal_degenerate_nil q hq n,
   fun qt q hq => by
     unfold Quadtree.Query
     rw [queryInternal_degenerate_nil q hq qt.root]
     rfl⟩

/-- Witness for C7 (amended) at a concrete input: a one-entry tree queried
with the zero-area rectangle sitting right on the entry yields no
results (the scenario of `TestQuery_withPointRect`). -/
theorem overlaps_characterization_witness :
    Quadtree.Query
      ⟨2, 2, Node.mk ⟨0, 0, 5, 5⟩ 0 (some [⟨⟨1, 1⟩, 7⟩]) none none none none, 1⟩
      ⟨1, 1, 0, 0⟩ = ([] : List ℕ) :=
  (overlaps_characterization ℕ ⟨0, 0, 5, 5⟩ ⟨1, 1, 0, 0⟩).2.2 _ _ (Or.inl rfl)

/-! ## Node projections -/

@[simp] theorem Node.bounds_mk {α : Type} (b : Rect) (d : ℤ)
    (items : Option (List (TreeEntry α))) (ul ur ll lr : Option (Node α)) :
    (Node.mk b d items ul ur ll lr).bounds = b := rfl

@[simp] theorem Node.depth_mk {α : Type} (b : Rect) (d : ℤ)
    (items : Option (List (TreeEntry α))) (ul ur ll lr : Option (Node α)) :
    (Node.mk b d items ul ur ll lr).depth = d := rfl

@[simp] theorem Node.items_mk {α : Type} (b : Rect) (d : ℤ)
    (items : Option (List (TreeEntry α))) (ul ur ll lr : Option (Node α)) :
    (Node.mk b d items ul ur ll lr).items = items := rfl

/-! ## Entries lie inside their subtree's bounds -/

theorem entries_sub {α : Type} (D M : ℤ) :
    ∀ n : Node α, WF D M n →
      ∀ e ∈ entries n, n.bounds.contains e.position = true := by
  intro n
  induction n using Node.induction with
  | h b d items ul ur ll lr ihul ihur ihll ihlr =>
    intro hwf e he
    cases items with
    | some l =>
      rw [WF_leaf] at hwf
      rw [entries_leaf] at he
      exact hwf.2.2.2.2.2 e he
    | none =>
      rw [WF_internal] at hwf
      rw [entries_internal] at he
      obtain ⟨hd, hul, hur, hll, hlr⟩ := hwf
      simp only [Node.bounds_mk]
      rcases List.mem_append.mp he with he | helr
      rcases List.mem_append.mp he with he | hell
      rcases List.mem_append.mp he with heul | heur
      · cases ul with
        | none => exact absurd hul (by simp [WFchild])
        | some c =>
          obtain ⟨hb, _, hcwf⟩ := hul
          have := ihul c rfl hcwf e (by simpa [entriesO] using heul)
          rw [hb] at this
          exact regionSub_quadrant_ul b e.position this
      · cases ur with
        | none => exact absurd hur (by simp [WFchild])
        | some c =>
          obtain ⟨hb, _, hcwf⟩ := hur
          have := ihur c rfl hcwf e (by simpa [entriesO] using heur)
          rw [hb] at this
          exact regionSub_quadrant_ur b e.position this
      · cases ll with
        | none => exact absurd hll (by simp [WFchild])
        | some c =>
          obtain ⟨hb, _, hcwf⟩ := hll
          have := ihll c rfl hcwf e (by simpa [entriesO] using hell)
          rw [hb] at this
          exact regionSub_quadrant_ll b e.position this
      · cases lr with
        | none => exact absurd hlr (by simp [WFchild])
        | some c =>
          obtain ⟨hb, _, hcwf⟩ := hlr
          have := ihlr c rfl hcwf e (by simpa [entriesO] using helr)
          rw [hb] at this
          exact regionSub_quadrant_lr b e.position this

theorem filter_entries_eq_nil {α : Type} (D M : ℤ) (q : Rect) (n : Node α)
    (hwf : WF D M n) (hov : ¬ overlaps n.bounds q = true) :
    (entries n).filter (fun e => q.contains e.position) = [] := by
  refine List.filter_eq_nil_iff.mpr fun e he => ?_
  intro hc
  exact hov (overlaps_of_common_point (entries_sub D M n hwf e he) (by simpa using hc))

/-! ## Query returns exactly the qualifying entries, in traversal order -/

theorem queryInternal_eq_filter {α : Type} (D M : ℤ) (q : Rect) :
    ∀ n : Node α, WF D M n →
      queryInternal n q = (entries n).filter (fun e => q.contains e.position) := by
  intro n
  induction n using Node.induction with
  | h b d items ul ur ll lr ihul ihur ihll ihlr =>
    intro hwf
    cases items with
    | some l =>
      rw [queryInternal_leaf, entries_leaf]
      split_ifs with hov
      · rfl
      · exact (filter_entries_eq_nil D M q _ hwf (by simpa using hov)).symm
    | none =>
      rw [queryInternal_internal, entries_internal]
      split_ifs with hov
      · have hwf' := hwf
        rw [WF_internal] at hwf'
        obtain ⟨hd, hul, hur, hll, hlr⟩ := hwf'
        rw [List.filter_append, List.filter_append, List.filter_append]
        congr 1
        congr 1
        congr 1
        · cases ul with
          | none => rfl
          | some c => exact ihul c rfl hul.2.2
        · cases ur with
          | none => rfl
          | some c => exact ihur c rfl hur.2.2
        · cases ll with
          | none => rfl
          | some c => exact ihll c rfl hll.2.2
        · cases lr with
          | none => rfl
          | some c => exact ihlr c rfl hlr.2.2
      · rw [← entries_internal]
        exact (filter_entries_eq_nil D M q _ hwf (by simpa using hov)).symm

/-! ## Small helpers for the insertion proof -/

@[simp] theorem entriesO_some {α : Type} (c : Node α) :
    entriesO (some c) = entries c := rfl

@[simp] theorem entriesO_none {α : Type} :
    entriesO (none : Option (Node α)) = [] := rfl

@[simp] theorem leavesO_some {α : Type} (c : Node α) :
    leavesO (some c) = leavesList c := rfl

@[simp] theorem leavesO_none {α : Type} :
    leavesO (none : Option (Node α)) = [] := rfl

@[simp] theorem queryO_some {α : Type} (c : Node α) (q : Rect) :
    queryO (some c) q = queryInternal c q := rfl

@[simp] theorem queryO_none {α : Type} (q : Rect) :
    queryO (none : Option (Node α)) q = [] := rfl

theorem preservesInternal_refl {α : Type} : ∀ n : Node α, preservesInternal n n := by
  intro n
  induction n using Node.induction with
  | h b d items ul ur ll lr ihul ihur ihll ihlr =>
    cases items with
    | some l => rw [preservesInternal_leaf]; trivial
    | none =>
      rw [preservesInternal_internal]
      refine ⟨rfl, ?_, ?_, ?_, ?_⟩
      · cases ul with
        | none => trivial
        | some c => exact ihul c rfl
      · cases ur with
        | none => trivial
        | some c => exact ihur c rfl
      · cases ll with
        | none => trivial
        | some c => exact ihll c rfl
      · cases lr with
        | none => trivial
        | some c => exact ihlr c rfl

theorem presO_refl {α : Type} (o : Option (Node α)) : presO o o := by
  cases o with
  | none => trivial
  | some c => exact preservesInternal_refl c

theorem perm4_1 {α : Type} {A' A : List α} (e : α) (B C E : List α)
    (h : A'.Perm (e :: A)) :
    (A' ++ B ++ C ++ E).Perm (e :: (A ++ B ++ C ++ E)) := by
  have h1 : (A' ++ B ++ C ++ E).Perm ((e :: A) ++ B ++ C ++ E) :=
    ((h.append_right B).append_right C).append_right E
  simpa using h1

theorem perm4_2 {α : Type} {B' B : List α} (e : α) (A C E : List α)
    (h : B'.Perm (e :: B)) :
    (A ++ B' ++ C ++ E).Perm (e :: (A ++ B ++ C ++ E)) := by
  have h1 : (A ++ B' ++ C ++ E).Perm (A ++ (e :: B) ++ C ++ E) :=
    (((List.Perm.append_left A h).append_right C).append_right E)
  refine h1.trans ?_
  have h2 : A ++ (e :: B) ++ C ++ E = A ++ e :: (B ++ C ++ E) := by
    simp [List.append_assoc]
  rw [h2]
  simpa [List.append_assoc] using
    (@List.perm_middle _ e A (B ++ C ++ E))

theorem perm4_3 {α : Type} {C' C : List α} (e : α) (A B E : List α)
    (h : C'.Perm (e :: C)) :
    (A ++ B ++ C' ++ E).Perm (e :: (A ++ B ++ C ++ E)) := by
  have h1 : (A ++ B ++ C' ++ E).Perm (A ++ B ++ (e :: C) ++ E) :=
    ((List.Perm.append_left (A ++ B) h).append_right E)
  refine h1.trans ?_
  have h2 : A ++ B ++ (e :: C) ++ E = (A ++ B) ++ e :: (C ++ E) := by
    simp [List.append_assoc]
  rw [h2]
  simpa [List.append_assoc] using
    (@List.perm_middle _ e (A ++ B) (C ++ E))

theorem perm4_4 {α : Type} {E' E : List α} (e : α) (A B C : List α)
    (h : E'.Perm (e :: E)) :
    (A ++ B ++ C ++ E').Perm (e :: (A ++ B ++ C ++ E)) := by
  have h1 : (A ++ B ++ C ++ E').Perm (A ++ B ++ C ++ (e :: E)) :=
    List.Perm.append_left (A ++ B ++ C) h
  refine h1.trans ?_
  have h2 : A ++ B ++ C ++ (e :: E) = (A ++ B ++ C) ++ e :: E := by
    simp [List.append_assoc]
  rw [h2]
  simpa [List.append_assoc] using
    (@List.perm_middle _ e (A ++ B ++ C) E)

/-! ## The main insertion lemma -/

theorem addInternal_main {α : Type} {D M : ℤ} (hM : 1 ≤ M) :
    ∀ (fuel : ℕ) (n : Node α) (e : TreeEntry α),
      WF D M n → n.bounds.contains e.position = true → need D n ≤ fuel →
      AddSpec D M n (addInternal D M fuel n e) e := by
  intro fuel
  induction fuel with
  | zero =>
    intro n e hwf hc hfuel
    exfalso
    obtain ⟨b, d, items, ul, ur, ll, lr⟩ := n
    cases items with
    | some l => simp [need] at hfuel
    | none =>
      rw [WF_internal] at hwf
      have hd := hwf.1
      simp [need] at hfuel
      omega
  | succ fuel IHf =>
    intro n e hwf hc hfuel
    obtain ⟨b, d, items, ul, ur, ll, lr⟩ := n
    simp only [Node.bounds_mk] at hc
    have hqn : whichQuadrant b e.position ≠ quadrantNone :=
      whichQuadrant_ne_none b e.position hc
    cases items with
    | some l =>
      rw [WF_leaf] at hwf
      obtain ⟨hdD, huln, hurn, hlln, hlrn, hent⟩ := hwf
      subst huln hurn hlln hlrn
      rw [addInternal_succ, if_neg hqn]
      by_cases h2 : (some l : Option (List (TreeEntry α))).isSome ∧ d ≥ D
      · rw [if_pos h2]
        refine ⟨?_, rfl, rfl, ?_, ?_, ?_⟩
        · rw [WF_leaf]
          refine ⟨hdD, rfl, rfl, rfl, rfl, ?_⟩
          intro e' he'
          rcases List.mem_append.mp he' with h | h
          · exact hent e' (by simpa using h)
          · simp at h; subst h; exact hc
        · intro hnone; exact absurd hnone (by simp)
        · simpa [entries_leaf] using @List.perm_append_comm _ l [e]
        · rw [preservesInternal_leaf]; trivial
      · rw [if_neg h2]
        have hdlt : d < D := by
          rcases not_and_or.mp h2 with h | h
          · simp at h
          · omega
        by_cases h3 : (itemsLen (some l : Option (List (TreeEntry α))) : ℤ) ≥ M
        · rw [if_pos h3]
          -- the split branch
          have hfuel' : 2 * (D - d).toNat ≤ fuel := by
            simp [need] at hfuel
            omega
          have hch : ∀ r : Rect,
              newNode (Node.mk b d (some l) none none none none) r =
                Node.mk r (d + 1) (some ([] : List (TreeEntry α))) none none none none :=
            fun r => rfl
          simp only [hch, Option.getD_some]
          set n0 : Node α := Node.mk b d none
              (some (Node.mk (Rect.quadrants b).1 (d + 1) (some []) none none none none))
              (some (Node.mk (Rect.quadrants b).2.1 (d + 1) (some []) none none none none))
              (some (Node.mk (Rect.quadrants b).2.2.1 (d + 1) (some []) none none none none))
              (some (Node.mk (Rect.quadrants b).2.2.2 (d + 1) (some []) none none none none))
            with hn0
          have hn'wf : WF D M n0 := by
            rw [hn0, WF_internal]
            refine ⟨hdlt, ?_, ?_, ?_, ?_⟩ <;>
              exact ⟨rfl, rfl, by rw [WF_leaf]; exact ⟨by omega, rfl, rfl, rfl, rfl, by simp⟩⟩
          have hn0e : entries n0 = [] := by
            rw [hn0, entries_internal]
            simp [entries_leaf]
          have hn0b : n0.bounds = b := by rw [hn0]; rfl
          have hn0d : n0.depth = d := by rw [hn0]; rfl
          have hn0i : n0.items = none := by rw [hn0]; rfl
          have hfold : ∀ (li : List (TreeEntry α)) (m : Node α),
              (∀ e' ∈ li, Rect.contains b e'.position = true) →
              WF D M m → m.bounds = b → m.depth = d → m.items = none →
              WF D M (li.foldl (fun m i => addInternal D M fuel m i) m) ∧
              (li.foldl (fun m i => addInternal D M fuel m i) m).bounds = b ∧
              (li.foldl (fun m i => addInternal D M fuel m i) m).depth = d ∧
              (li.foldl (fun m i => addInternal D M fuel m i) m).items = none ∧
              (entries (li.foldl (fun m i => addInternal D M fuel m i) m)).Perm
                (li ++ entries m) := by
            intro li
            induction li with
            | nil => intro m _ hm hb hd hi; exact ⟨hm, hb, hd, hi, by simp⟩
            | cons i t iht =>
              intro m hall hm hb hd hi
              have hci : m.bounds.contains i.position = true := by
                rw [hb]; exact hall i (by simp)
              have hneed : need D m ≤ fuel := by
                simp only [need, hd, hi, Option.isSome_none, Bool.false_eq_true,
                  if_false]
                omega
              have hstep := IHf m i hm hci hneed
              rw [List.foldl_cons]
              have hrec := iht (addInternal D M fuel m i)
                (fun e' he' => hall e' (by simp [he']))
                hstep.wf (by rw [hstep.bounds, hb]) (by rw [hstep.depth, hd])
                (hstep.itemsNone hi)
              refine ⟨hrec.1, hrec.2.1, hrec.2.2.1, hrec.2.2.2.1, ?_⟩
              refine hrec.2.2.2.2.trans ?_
              have h1 : (t ++ entries (addInternal D M fuel m i)).Perm
                  (t ++ (i :: entries m)) := List.Perm.append_left t hstep.perm
              exact h1.trans List.perm_middle
          have hent' : ∀ e' ∈ l, Rect.contains b e'.position = true := fun e' he' =>
            hent e' (by simpa using he')
          have hmain := hfold l n0 hent' hn'wf hn0b hn0d hn0i
          have hneedm : need D (l.foldl (fun m i => addInternal D M fuel m i) n0) ≤ fuel := by
            simp only [need, hmain.2.2.1, hmain.2.2.2.1, Option.isSome_none,
              Bool.false_eq_true, if_false]
            omega
          have hcm : (l.foldl (fun m i => addInternal D M fuel m i) n0).bounds.contains
              e.position = true := by
            rw [hmain.2.1]; exact hc
          have hres := IHf _ e hmain.1 hcm hneedm
          refine ⟨hres.wf, ?_, ?_, ?_, ?_, ?_⟩
          · rw [hres.bounds, hmain.2.1]; rfl
          · rw [hres.depth, hmain.2.2.1]; rfl
          · intro hnone; exact absurd hnone (by simp)
          · refine hres.perm.trans ?_
            rw [entries_leaf]
            refine List.Perm.cons e ?_
            refine hmain.2.2.2.2.trans ?_
            rw [hn0e]
            simp
          · rw [preservesInternal_leaf]; trivial
        · rw [if_neg h3, if_pos (by simp : ((some l : Option (List (TreeEntry α))).isSome = true))]
          refine ⟨?_, rfl, rfl, ?_, ?_, ?_⟩
          · rw [WF_leaf]
            refine ⟨hdD, rfl, rfl, rfl, rfl, ?_⟩
            intro e' he'
            rcases List.mem_append.mp he' with h | h
            · exact hent e' (by simpa using h)
            · simp at h; subst h; exact hc
          · intro hnone; exact absurd hnone (by simp)
          · simpa [entries_leaf] using @List.perm_append_comm _ l [e]
          · rw [preservesInternal_leaf]; trivial
    | none =>
      rw [WF_internal] at hwf
      obtain ⟨hdlt, hul, hur, hll, hlr⟩ := hwf
      rw [addInternal_succ, if_neg hqn]
      rw [if_neg (by simp : ¬((none : Option (List (TreeEntry α))).isSome ∧ d ≥ D))]
      rw [if_neg (show ¬((itemsLen (none : Option (List (TreeEntry α))) : ℤ) ≥ M) by
        simp [itemsLen]; omega)]
      rw [if_neg (by simp : ¬((none : Option (List (TreeEntry α))).isSome = true))]
      have hfuel' : 2 * (D - d).toNat ≤ fuel + 1 := by
        simpa [need] using hfuel
      have hchild : ∀ (c : Node α), c.depth = d + 1 → need D c ≤ fuel := by
        intro c hcd
        have : (if c.items.isSome then 1 else 0) ≤ 1 := by split <;> omega
        simp only [need, hcd]
        omega
      rcases whichQuadrant_cases b e.position hc with
        ⟨hw, -, -⟩ | ⟨hw, -, -⟩ | ⟨hw, -, -⟩ | ⟨hw, -, -⟩ <;> rw [hw]
      · -- lower left
        rw [if_neg (by norm_num [quadrantLowerLeft, quadrantUpperLeft]),
          if_neg (by norm_num [quadrantLowerLeft, quadrantUpperRight]),
          if_pos rfl]
        cases ll with
        | none => exact absurd hll (by simp [WFchild])
        | some c =>
          obtain ⟨hcb, hcd, hcwf⟩ := hll
          have hcc : c.bounds.contains e.position = true := by
            rw [hcb]
            have := contains_quadrantRect b e.position hc
            rw [hw, quadrantRect_ll] at this
            rw [quadrants_explicit]
            exact this
          have hstep := IHf c e hcwf hcc (hchild c hcd)
          simp only [Option.map_some']
          refine ⟨?_, rfl, rfl, fun _ => rfl, ?_, ?_⟩
          · rw [WF_internal]
            exact ⟨hdlt, hul, hur,
              ⟨hstep.bounds.trans hcb, hstep.depth.trans hcd, hstep.wf⟩, hlr⟩
          · rw [entries_internal, entries_internal]
            simp only [entriesO_some]
            exact perm4_3 e _ _ _ hstep.perm
          · rw [preservesInternal_internal]
            exact ⟨rfl, presO_refl ul, presO_refl ur, hstep.pres, presO_refl lr⟩
      · -- upper left
        rw [if_pos rfl]
        cases ul with
        | none => exact absurd hul (by simp [WFchild])
        | some c =>
          obtain ⟨hcb, hcd, hcwf⟩ := hul
          have hcc : c.bounds.contains e.position = true := by
            rw [hcb]
            have := contains_quadrantRect b e.position hc
            rw [hw, quadrantRect_ul] at this
            rw [quadrants_explicit]
            exact this
          have hstep := IHf c e hcwf hcc (hchild c hcd)
          simp only [Option.map_some']
          refine ⟨?_, rfl, rfl, fun _ => rfl, ?_, ?_⟩
          · rw [WF_internal]
            exact ⟨hdlt,
              ⟨hstep.bounds.trans hcb, hstep.depth.trans hcd, hstep.wf⟩, hur, hll, hlr⟩
          · rw [entries_internal, entries_internal]
            simp only [entriesO_some]
            exact perm4_1 e _ _ _ hstep.perm
          · rw [preservesInternal_internal]
            exact ⟨rfl, hstep.pres, presO_refl ur, presO_refl ll, presO_refl lr⟩
      · -- lower right
        rw [if_neg (by norm_num [quadrantLowerRight, quadrantUpperLeft]),
          if_neg (by norm_num [quadrantLowerRight, quadrantUpperRight]),
          if_neg (by norm_num [quadrantLowerRight, quadrantLowerLeft]),
          if_pos rfl]
        cases lr with
        | none => exact absurd hlr (by simp [WFchild])
        | some c =>
          obtain ⟨hcb, hcd, hcwf⟩ := hlr
          have hcc : c.bounds.contains e.position = true := by
            rw [hcb]
            have := contains_quadrantRect b e.position hc
            rw [hw, quadrantRect_lr] at this
            rw [quadrants_explicit]
            exact this
          have hstep := IHf c e hcwf hcc (hchild c hcd)
          simp only [Option.map_some']
          refine ⟨?_, rfl, rfl, fun _ => rfl, ?_, ?_⟩
          · rw [WF_internal]
            exact ⟨hdlt, hul, hur, hll,
              ⟨hstep.bounds.trans hcb, hstep.depth.trans hcd, hstep.wf⟩⟩
          · rw [entries_internal, entries_internal]
            simp only [entriesO_some]
            exact perm4_4 e _ _ _ hstep.perm
          · rw [preservesInternal_internal]
            exact ⟨rfl, presO_refl ul, presO_refl ur, presO_refl ll, hstep.pres⟩
      · -- upper right
        rw [if_neg (by norm_num [quadrantUpperRight, quadrantUpperLeft]),
          if_pos rfl]
        cases ur with
        | none => exact absurd hur (by simp [WFchild])
        | some c =>
          obtain ⟨hcb, hcd, hcwf⟩ := hur
          have hcc : c.bounds.contains e.position = true := by
            rw [hcb]
            have := contains_quadrantRect b e.position hc
            rw [hw, quadrantRect_ur] at this
            rw [quadrants_explicit]
            exact this
          have hstep := IHf c e hcwf hcc (hchild c hcd)
          simp only [Option.map_some']
          refine ⟨?_, rfl, rfl, fun _ => rfl, ?_, ?_⟩
          · rw [WF_internal]
            exact ⟨hdlt, hul,
              ⟨hstep.bounds.trans hcb, hstep.depth.trans hcd, hstep.wf⟩, hll, hlr⟩
          · rw [entries_internal, entries_internal]
            simp only [entriesO_some]
            exact perm4_2 e _ _ _ hstep.perm
          · rw [preservesInternal_internal]
            exact ⟨rfl, presO_refl ul, hstep.pres, presO_refl ll, presO_refl lr⟩

/-! ## Tree-level invariant lemmas -/

theorem TreeInv_new {α : Type} {bounds : Rect} {D M : ℤ} {qt : Quadtree α}
    (h : NewQuadtree bounds D M = .ok qt) : TreeInv qt := by
  unfold NewQuadtree at h
  split_ifs at h with h1 h2
  cases h
  refine ⟨by dsimp; omega, by dsimp; omega, rfl, ?_⟩
  rw [WF_leaf]
  exact ⟨by dsimp; omega, rfl, rfl, rfl, rfl, by simp⟩

theorem add_step {α : Type} (qt : Quadtree α) (inv : TreeInv qt) (a : α) (p : Point) :
    TreeInv (qt.add a p).1 ∧
    (qt.add a p).1.root.bounds = qt.root.bounds ∧
    (qt.add a p).1.maxDepth = qt.maxDepth ∧
    (qt.add a p).1.maxItemsPerNode = qt.maxItemsPerNode ∧
    (qt.root.bounds.contains p = true →
      (entries (qt.add a p).1.root).Perm
        ((⟨p, a⟩ : TreeEntry α) :: entries qt.root) ∧
      (qt.add a p).1.size = qt.size + 1 ∧ (qt.add a p).2 = none) ∧
    (qt.root.bounds.contains p = false →
      (qt.add a p) = (qt, some "Add failed: position outside bounds of tree.")) ∧
    preservesInternal qt.root (qt.add a p).1.root := by
  by_cases hc : qt.root.bounds.contains p = true
  · have hfuel : need qt.maxDepth qt.root ≤ addFuel qt.maxDepth := by
      have hD := inv.hD
      simp only [need, inv.hdepth0, addFuel]
      split <;> omega
    have hres := addInternal_main inv.hM (addFuel qt.maxDepth) qt.root ⟨p, a⟩ inv.hwf hc hfuel
    have hadd : qt.add a p =
        ({ qt with
            root := addInternal qt.maxDepth qt.maxItemsPerNode (addFuel qt.maxDepth)
              qt.root ⟨p, a⟩
            size := qt.size + 1 }, none) := by
      unfold Quadtree.add
      rw [if_neg (by simpa using hc)]
    rw [hadd]
    refine ⟨⟨inv.hM, inv.hD, ?_, hres.wf⟩, hres.bounds, rfl, rfl, ?_, ?_, hres.pres⟩
    · exact hres.depth.trans inv.hdepth0
    · intro _; exact ⟨hres.perm, rfl, rfl⟩
    · intro hf; rw [hc] at hf; cases hf
  · have hadd : qt.add a p = (qt, some "Add failed: position outside bounds of tree.") := by
      unfold Quadtree.add
      rw [if_pos (by simpa using hc)]
    rw [hadd]
    exact ⟨inv, rfl, rfl, rfl, fun h => absurd h hc, fun _ => rfl,
      preservesInternal_refl qt.root⟩

theorem Reachable_inv {α : Type} {qt : Quadtree α} (h : Reachable qt) : TreeInv qt := by
  induction h with
  | new hnew => exact TreeInv_new hnew
  | add a p _ ih => exact (add_step _ ih a p).1

theorem applyAll_spec {α : Type} :
    ∀ (reqs : List (α × Point)) (qt : Quadtree α), TreeInv qt →
      TreeInv (applyAll qt reqs) ∧
      (applyAll qt reqs).root.bounds = qt.root.bounds ∧
      (applyAll qt reqs).size =
        qt.size + ((reqs.filter (fun r => qt.root.bounds.contains r.2)).length : ℤ) ∧
      ((∀ r ∈ reqs, qt.root.bounds.contains r.2 = true) →
        (entries (applyAll qt reqs).root).Perm
          ((reqs.map (fun r => (⟨r.2, r.1⟩ : TreeEntry α))) ++ entries qt.root)) := by
  intro reqs
  induction reqs with
  | nil =>
    intro qt inv
    refine ⟨inv, rfl, by simp [applyAll], fun _ => ?_⟩
    simp only [applyAll, List.foldl_nil, List.map_nil, List.nil_append]
    exact List.Perm.refl _
  | cons r t iht =>
    intro qt inv
    have hstep := add_step qt inv r.1 r.2
    have happ : applyAll qt (r :: t) = applyAll (qt.add r.1 r.2).1 t := by
      unfold applyAll
      rw [List.foldl_cons]
    have hrec := iht (qt.add r.1 r.2).1 hstep.1
    rw [happ]
    refine ⟨hrec.1, hrec.2.1.trans hstep.2.1, ?_, ?_⟩
    · rw [hrec.2.2.1]
      by_cases hc : qt.root.bounds.contains r.2 = true
      · have h1 := (hstep.2.2.2.2.1 hc).2.1
        rw [h1]
        rw [List.filter_cons_of_pos (by simpa using hc)]
        have hfun : (fun r' : α × Point => (qt.add r.1 r.2).1.root.bounds.contains r'.2)
            = (fun r' : α × Point => qt.root.bounds.contains r'.2) := by
          funext r'
          rw [hstep.2.1]
        rw [hfun]
        simp only [List.length_cons]
        push_cast
        omega
      · have h1 := (hstep.2.2.2.2.2.1 (by simpa using hc))
        rw [h1]
        rw [List.filter_cons_of_neg (by simpa using hc)]
    · intro hall
      have hc : qt.root.bounds.contains r.2 = true := hall r (by simp)
      have hperm1 := (hstep.2.2.2.2.1 hc).1
      have hall' : ∀ r' ∈ t, (qt.add r.1 r.2).1.root.bounds.contains r'.2 = true := by
        intro r' hr'
        rw [hstep.2.1]
        exact hall r' (by simp [hr'])
      have hperm2 := hrec.2.2.2 hall'
      refine hperm2.trans ?_
      have h3 := List.Perm.append_left (t.map (fun r => (⟨r.2, r.1⟩ : TreeEntry α))) hperm1
      refine h3.trans ?_
      simpa using
        (@List.perm_middle _ ((⟨r.2, r.1⟩ : TreeEntry α))
          (t.map (fun r => (⟨r.2, r.1⟩ : TreeEntry α))) (entries qt.root))

theorem WF_to_LXI {α : Type} (D M : ℤ) :
    ∀ n : Node α, WF D M n → LeafXorInternal n := by
  intro n
  induction n using Node.induction with
  | h b d items ul ur ll lr ihul ihur ihll ihlr =>
    intro hwf
    cases items with
    | some l =>
      rw [WF_leaf] at hwf
      rw [LeafXorInternal_leaf]
      exact ⟨hwf.2.1, hwf.2.2.1, hwf.2.2.2.1, hwf.2.2.2.2.1⟩
    | none =>
      rw [WF_internal] at hwf
      obtain ⟨-, hul, hur, hll, hlr⟩ := hwf
      rw [LeafXorInternal_internal]
      refine ⟨?_, ?_, ?_, ?_⟩
      · cases ul with
        | none => exact absurd hul (by simp [WFchild])
        | some c => exact ihul c rfl hul.2.2
      · cases ur with
        | none => exact absurd hur (by simp [WFchild])
        | some c => exact ihur c rfl hur.2.2
      · cases ll with
        | none => exact absurd hll (by simp [WFchild])
        | some c => exact ihll c rfl hll.2.2
      · cases lr with
        | none => exact absurd hlr (by simp [WFchild])
        | some c => exact ihlr c rfl hlr.2.2

theorem WF_to_SI {α : Type} (D M : ℤ) :
    ∀ n : Node α, WF D M n → StructuralInv n := by
  intro n
  induction n using Node.induction with
  | h b d items ul ur ll lr ihul ihur ihll ihlr =>
    intro hwf
    cases items with
    | some l =>
      rw [WF_leaf] at hwf
      rw [StructuralInv_leaf]
      exact hwf.2.2.2.2.2
    | none =>
      rw [WF_internal] at hwf
      obtain ⟨-, hul, hur, hll, hlr⟩ := hwf
      rw [StructuralInv_internal]
      refine ⟨?_, ?_, ?_, ?_⟩
      · cases ul with
        | none => trivial
        | some c =>
          exact ⟨hul.1 ▸ regionSub_quadrant_ul b, ihul c rfl hul.2.2⟩
      · cases ur with
        | none => trivial
        | some c =>
          exact ⟨hur.1 ▸ regionSub_quadrant_ur b, ihur c rfl hur.2.2⟩
      · cases ll with
        | none => trivial
        | some c =>
          exact ⟨hll.1 ▸ regionSub_quadrant_ll b, ihll c rfl hll.2.2⟩
      · cases lr with
        | none => trivial
        | some c =>
          exact ⟨hlr.1 ▸ regionSub_quadrant_lr b, ihlr c rfl hlr.2.2⟩

/-! ## The claims about the full tree API -/

/-- C1.  For every tree created with `maxDepth ≥ 1` and
`maxItemsPerNode ≥ 1` and every sequence of insertions whose positions all
lie in the tree's bounds, `Query` with the tree's own bounds returns
exactly the multiset of inserted payloads: nothing is lost by splitting or
quadrant routing and nothing is duplicated. -/
theorem query_roundtrip_multiset {α : Type} (bounds : Rect) (D M : ℤ)
    (qt0 : Quadtree α) (reqs : List (α × Point))
    (hnew : NewQuadtree bounds D M = .ok qt0)
    (hin : ∀ r ∈ reqs, bounds.contains r.2 = true) :
    ((applyAll qt0 reqs).Query ((applyAll qt0 reqs).root.bounds)).Perm
      (reqs.map (fun r => r.1)) := by
  have inv0 : TreeInv qt0 := TreeInv_new hnew
  have hroot : qt0.root = Node.mk bounds 0 (some []) none none none none := by
    unfold NewQuadtree at hnew
    split_ifs at hnew
    cases hnew
    rfl
  have happ := applyAll_spec reqs qt0 inv0
  have hperm := happ.2.2.2 (by intro r hr; rw [hroot]; simpa using hin r hr)
  have hfilter : queryInternal (applyAll qt0 reqs).root (applyAll qt0 reqs).root.bounds =
      entries (applyAll qt0 reqs).root := by
    rw [queryInternal_eq_filter (applyAll qt0 reqs).maxDepth
      (applyAll qt0 reqs).maxItemsPerNode _ _ happ.1.hwf]
    refine List.filter_eq_self.mpr fun e he => ?_
    simpa using
      entries_sub (applyAll qt0 reqs).maxDepth (applyAll qt0 reqs).maxItemsPerNode
        _ happ.1.hwf e he
  unfold Quadtree.Query
  rw [hfilter]
  have h3 := hperm.map (fun e : TreeEntry α => e.data)
  rw [hroot] at h3
  simp only [entries_leaf] at h3
  simpa using h3

/-- Witness for C1: two payloads inserted into a `maxDepth = 2`,
`maxItemsPerNode = 1` tree over `(0,0)×(1,1)` (which forces a split) are
both returned by a full-bounds query. -/
theorem query_roundtrip_multiset_witness :
    ((applyAll
        ⟨2, 1, Node.mk ⟨0, 0, 1, 1⟩ 0 (some []) none none none none, 0⟩
        [((10 : ℕ), ⟨1/4, 1/4⟩), (20, ⟨3/4, 1/4⟩)]).Query
      ((applyAll
        ⟨2, 1, Node.mk ⟨0, 0, 1, 1⟩ 0 (some []) none none none none, 0⟩
        [((10 : ℕ), ⟨1/4, 1/4⟩), (20, ⟨3/4, 1/4⟩)]).root.bounds)).Perm
      ([((10 : ℕ), (⟨1/4, 1/4⟩ : Point)), (20, ⟨3/4, 1/4⟩)].map (fun r => r.1)) := by
  refine query_roundtrip_multiset ⟨0, 0, 1, 1⟩ 2 1 _ _ rfl ?_
  intro r hr
  simp only [List.mem_cons, List.not_mem_nil, or_false] at hr
  rcases hr with rfl | rfl <;> norm_num [Rect.contains]

/-- C4.  After a sequence of `Add` calls on a fresh tree, `Size` equals
exactly the number of calls whose position the root bounds contain; every
rejected call returns an error and leaves the whole tree state (size
included) unchanged. -/
theorem size_counts_successful_adds {α : Type} (bounds : Rect) (D M : ℤ)
    (qt0 : Quadtree α) (reqs : List (α × Point))
    (hnew : NewQuadtree bounds D M = .ok qt0) :
    (applyAll qt0 reqs).Size =
      ((reqs.filter (fun r => bounds.contains r.2)).length : ℤ) ∧
    (∀ (qt : Quadtree α) (a : α) (p : Point), qt.root.bounds.contains p = false →
      qt.add a p = (qt, some "Add failed: position outside bounds of tree.")) := by
  constructor
  · have inv0 : TreeInv qt0 := TreeInv_new hnew
    have hroot : qt0.root = Node.mk bounds 0 (some []) none none none none := by
      unfold NewQuadtree at hnew
      split_ifs at hnew
      cases hnew
      rfl
    have hsize : qt0.size = 0 := by
      unfold NewQuadtree at hnew
      split_ifs at hnew
      cases hnew
      rfl
    have happ := applyAll_spec reqs qt0 inv0
    unfold Quadtree.Size
    rw [happ.2.2.1, hsize]
    simp only [hroot, Node.bounds_mk]
    omega
  · intro qt a p hp
    unfold Quadtree.add
    rw [if_pos (by simp [hp])]

/-- Witness for C4: of three `Add` calls on a tree over `(0,0)×(1,1)`, the
out-of-bounds one is rejected and the final size is `2`. -/
theorem size_counts_successful_adds_witness :
    (applyAll ⟨5, 5, Node.mk ⟨0, 0, 1, 1⟩ 0 (some []) none none none none, 0⟩
        [((1 : ℕ), ⟨1/2, 1/2⟩), (2, ⟨5, 0⟩), (3, ⟨1/4, 1/4⟩)]).Size =
      (([((1 : ℕ), (⟨1/2, 1/2⟩ : Point)), (2, ⟨5, 0⟩), (3, ⟨1/4, 1/4⟩)].filter
        (fun r => Rect.contains ⟨0, 0, 1, 1⟩ r.2)).length : ℤ) :=
  (size_counts_successful_adds ⟨0, 0, 1, 1⟩ 5 5 _ _ rfl).1

/-- C8.  In every tree reachable through the public API, every node is
either a leaf (non-nil entries, all four child references unset) or
internal (all four children set, nil entries), never both or neither; and
no `Add` ever turns an internal node back into a leaf (the leaf→internal
transition is one-way; `Query` and `Size` do not modify the tree at all in
this model). -/
theorem leaf_internal_invariant {α : Type} (qt : Quadtree α) (h : Reachable qt) :
    LeafXorInternal qt.root ∧
    ∀ (a : α) (p : Point), preservesInternal qt.root ((qt.add a p).1.root) :=
  have inv := Reachable_inv h
  ⟨WF_to_LXI qt.maxDepth qt.maxItemsPerNode qt.root inv.hwf,
   fun a p => (add_step qt inv a p).2.2.2.2.2.2⟩

/-- Witness for C8: the invariant holds on the freshly constructed tree
`NewQuadtree(Rect{0,0,1,1}, 5, 10)`. -/
theorem leaf_internal_invariant_witness :
    LeafXorInternal
      (Quadtree.root
        (⟨5, 10, Node.mk ⟨0, 0, 1, 1⟩ 0 (some []) none none none none, 0⟩ : Quadtree ℕ)) ∧
    ∀ (a : ℕ) (p : Point),
      preservesInternal
        (Quadtree.root
          (⟨5, 10, Node.mk ⟨0, 0, 1, 1⟩ 0 (some []) none none none none, 0⟩ : Quadtree ℕ))
        ((Quadtree.add
          (⟨5, 10, Node.mk ⟨0, 0, 1, 1⟩ 0 (some []) none none none none, 0⟩ : Quadtree ℕ)
          a p).1.root) :=
  leaf_internal_invariant _
    (@Reachable.new ℕ ⟨0, 0, 1, 1⟩ 5 10 _ rfl)

/-- C10.  In every reachable tree, each stored entry lies in a leaf whose
bounds contain its position and each node's bounds region is included in
its parent's (`StructuralInv`); consequently a query with any rectangle
whose region includes the root bounds returns the same payloads as a query
with the root bounds themselves. -/
theorem entries_in_leaf_bounds_query_ext {α : Type} (qt : Quadtree α)
    (h : Reachable qt) :
    StructuralInv qt.root ∧
    ∀ Q : Rect, regionSub qt.root.bounds Q →
      qt.Query Q = qt.Query qt.root.bounds := by
  have inv := Reachable_inv h
  refine ⟨WF_to_SI qt.maxDepth qt.maxItemsPerNode qt.root inv.hwf, ?_⟩
  intro Q hQ
  unfold Quadtree.Query
  rw [queryInternal_eq_filter qt.maxDepth qt.maxItemsPerNode _ _ inv.hwf,
    queryInternal_eq_filter qt.maxDepth qt.maxItemsPerNode _ _ inv.hwf]
  have hroot : (entries qt.root).filter
      (fun e => qt.root.bounds.contains e.position) = entries qt.root :=
    List.filter_eq_self.mpr fun e he => by
      simpa using entries_sub qt.maxDepth qt.maxItemsPerNode _ inv.hwf e he
  have hQf : (entries qt.root).filter (fun e => Q.contains e.position) =
      entries qt.root :=
    List.filter_eq_self.mpr fun e he => by
      simpa using hQ e.position (entries_sub qt.maxDepth qt.maxItemsPerNode _ inv.hwf e he)
  rw [hroot, hQf]

/-- Witness for C10: on the fresh tree over `(0,0)×(1,1)`, querying with
the larger rectangle `(-1,-1)×(3,3)` agrees with querying the root
bounds. -/
theorem entries_in_leaf_bounds_query_ext_witness :
    Quadtree.Query (α := ℕ)
        ⟨5, 10, Node.mk ⟨0, 0, 1, 1⟩ 0 (some []) none none none none, 0⟩ ⟨-1, -1, 3, 3⟩ =
      Quadtree.Query
        ⟨5, 10, Node.mk ⟨0, 0, 1, 1⟩ 0 (some []) none none none none, 0⟩
        (Quadtree.root
          (⟨5, 10, Node.mk ⟨0, 0, 1, 1⟩ 0 (some []) none none none none, 0⟩
            : Quadtree ℕ)).bounds := by
  have h := (entries_in_leaf_bounds_query_ext (α := ℕ)
    ⟨5, 10, Node.mk ⟨0, 0, 1, 1⟩ 0 (some []) none none none none, 0⟩
    (@Reachable.new ℕ ⟨0, 0, 1, 1⟩ 5 10 _ rfl)).2
    ⟨-1, -1, 3, 3⟩
  refine h ?_
  intro p hp
  rw [Rect.contains_iff] at hp ⊢
  obtain ⟨h1, h2, h3, h4⟩ := hp
  simp only [Node.bounds_mk] at h1 h2 h3 h4 ⊢
  refine ⟨by linarith, by linarith, by linarith, by linarith⟩

/-! ## The short-circuiting traversal equals the early-exit fold -/

theorem stopFold_append {α σ : Type} (f : σ → α → Point → σ × Bool) :
    ∀ (l1 l2 : List (TreeEntry α)) (s : σ),
      stopFold f (l1 ++ l2) s =
        if (stopFold f l1 s).2 then stopFold f l2 (stopFold f l1 s).1
        else stopFold f l1 s := by
  intro l1
  induction l1 with
  | nil => intro l2 s; simp [stopFold]
  | cons e t iht =>
    intro l2 s
    simp only [List.cons_append, stopFold]
    by_cases hf : (f s e.data e.position).2 <;> simp [hf, iht]

theorem stopFold_append4 {α σ : Type} (f : σ → α → Point → σ × Bool)
    (A B C E : List (TreeEntry α)) (s : σ) :
    stopFold f (A ++ B ++ C ++ E) s =
      (let r1 := stopFold f A s
       if r1.2 then
        let r2 := stopFold f B r1.1
        if r2.2 then
          let r3 := stopFold f C r2.1
          if r3.2 then stopFold f E r3.1 else r3
        else r2
       else r1) := by
  rw [stopFold_append, stopFold_append, stopFold_append]
  by_cases hA : (stopFold f A s).2 <;> simp only [hA, if_true, if_false]
  · by_cases hB : (stopFold f B (stopFold f A s).1).2 <;> simp [hA, hB]
  · simp [hA]

theorem visitItems_eq_stopFold {α σ : Type} (f : σ → α → Point → σ × Bool)
    (q : Rect) :
    ∀ (l : List (TreeEntry α)) (s : σ),
      visitItems f q l s = stopFold f (l.filter (fun e => q.contains e.position)) s := by
  intro l
  induction l with
  | nil => intro s; rfl
  | cons e t iht =>
    intro s
    by_cases hc : q.contains e.position = true
    · rw [List.filter_cons_of_pos (by simpa using hc)]
      simp only [visitItems, stopFold, hc, if_true]
      by_cases hf : (f s e.data e.position).2 <;> simp [hf, iht]
    · rw [List.filter_cons_of_neg (by simpa using hc)]
      simp only [visitItems, hc]
      simp only [Bool.false_eq_true, if_false]
      exact iht s

theorem stopFold_allTrue {α σ : Type} (f : σ → α → Point → σ × Bool)
    (hf : ∀ (s : σ) (a : α) (p : Point), (f s a p).2 = true) :
    ∀ (l : List (TreeEntry α)) (s : σ),
      stopFold f l s = (l.foldl (fun s' e => (f s' e.data e.position).1) s, true) := by
  intro l
  induction l with
  | nil => intro s; rfl
  | cons e t iht =>
    intro s
    simp only [stopFold, hf, if_true, List.foldl_cons]
    exact iht _

theorem queryVisit_eq_stopFold {α σ : Type} (f : σ → α → Point → σ × Bool)
    (q : Rect) :
    ∀ (n : Node α) (s : σ),
      queryVisit f n q s = stopFold f (queryInternal n q) s := by
  intro n
  induction n using Node.induction with
  | h b d items ul ur ll lr ihul ihur ihll ihlr =>
    intro s
    cases items with
    | some l =>
      rw [queryVisit_leaf, queryInternal_leaf]
      split_ifs with hov
      · exact visitItems_eq_stopFold f q l s
      · rfl
    | none =>
      rw [queryVisit_internal, queryInternal_internal]
      split_ifs with hov
      · rw [stopFold_append4]
        have hOul : ∀ s' : σ, queryVisitO f ul q s' = stopFold f (queryO ul q) s' := by
          intro s'
          cases ul with
          | none => rfl
          | some c => exact ihul c rfl s'
        have hOur : ∀ s' : σ, queryVisitO f ur q s' = stopFold f (queryO ur q) s' := by
          intro s'
          cases ur with
          | none => rfl
          | some c => exact ihur c rfl s'
        have hOll : ∀ s' : σ, queryVisitO f ll q s' = stopFold f (queryO ll q) s' := by
          intro s'
          cases ll with
          | none => rfl
          | some c => exact ihll c rfl s'
        have hOlr : ∀ s' : σ, queryVisitO f lr q s' = stopFold f (queryO lr q) s' := by
          intro s'
          cases lr with
          | none => rfl
          | some c => exact ihlr c rfl s'
        simp only [hOul, hOur, hOll, hOlr]
      · rfl

/-- C2 (spec-modelled).  The short-circuiting visitor traversal
(`QueryIterative`, whose implementation is modelled from spec §4.4 because
only its tests appear among the sources) equals the early-exit fold
`stopFold` over the flat list of qualifying entries: the visitor runs on
qualifying entries in traversal order and, the first time it returns
false, nothing further in the whole tree is visited and the visitor is
never invoked again, at any recursion depth.  If the visitor always
returns true, it is invoked exactly once per qualifying entry, in the
collect-query's traversal order. -/
theorem queryIterative_global_early_exit {α σ : Type} (qt : Quadtree α)
    (bounds : Rect) (f : σ → α → Point → σ × Bool) (s : σ) :
    qt.QueryIterative bounds f s = stopFold f (queryInternal qt.root bounds) s ∧
    ((∀ (s' : σ) (a : α) (p : Point), (f s' a p).2 = true) →
      qt.QueryIterative bounds f s =
        ((queryInternal qt.root bounds).foldl
          (fun s' e => (f s' e.data e.position).1) s, true)) :=
  ⟨queryVisit_eq_stopFold f bounds qt.root s,
   fun hf => (queryVisit_eq_stopFold f bounds qt.root s).trans
     (stopFold_allTrue f hf (queryInternal qt.root bounds) s)⟩

/-- Witness for C2: a payload-counting visitor that always continues,
run on a concrete one-leaf tree, visits each qualifying entry exactly
once. -/
theorem queryIterative_global_early_exit_witness :
    Quadtree.QueryIterative
        (⟨2, 2, Node.mk ⟨0, 0, 5, 5⟩ 0
          (some [⟨⟨1, 1⟩, 7⟩, ⟨⟨2, 2⟩, 8⟩]) none none none none, 2⟩ : Quadtree ℕ)
        ⟨0, 0, 5, 5⟩ (fun (s : ℕ) _ _ => (s + 1, true)) 0 =
      ((queryInternal
          (Quadtree.root (⟨2, 2, Node.mk ⟨0, 0, 5, 5⟩ 0
            (some [⟨⟨1, 1⟩, 7⟩, ⟨⟨2, 2⟩, 8⟩]) none none none none, 2⟩ : Quadtree ℕ))
          ⟨0, 0, 5, 5⟩).foldl (fun s' _ => s' + 1) 0, true) :=
  (queryIterative_global_early_exit _ ⟨0, 0, 5, 5⟩
    (fun (s : ℕ) _ _ => (s + 1, true)) 0).2 (fun _ _ _ => rfl)

/-! ## Inserting repeatedly at one point: the chain shape -/

theorem pchain_zero {α : Type} (p : Point) (l : List (TreeEntry α)) (b : Rect) (d : ℤ) :
    pchain p l 0 b d = .mk b d (some l) none none none none := rfl

theorem pchain_succ_ul {α : Type} (p : Point) (l : List (TreeEntry α)) (k : ℕ)
    (b : Rect) (d : ℤ) (hw : whichQuadrant b p = quadrantUpperLeft) :
    pchain p l (k + 1) b d = Node.mk b d none
      (some (pchain p l k (Rect.quadrants b).1 (d + 1)))
      (some (emptyLeaf (Rect.quadrants b).2.1 (d + 1)))
      (some (emptyLeaf (Rect.quadrants b).2.2.1 (d + 1)))
      (some (emptyLeaf (Rect.quadrants b).2.2.2 (d + 1))) := by
  simp only [pchain, hw]
  norm_num [quadrantUpperLeft, quadrantUpperRight, quadrantLowerLeft, quadrantLowerRight]

theorem pchain_succ_ur {α : Type} (p : Point) (l : List (TreeEntry α)) (k : ℕ)
    (b : Rect) (d : ℤ) (hw : whichQuadrant b p = quadrantUpperRight) :
    pchain p l (k + 1) b d = Node.mk b d none
      (some (emptyLeaf (Rect.quadrants b).1 (d + 1)))
      (some (pchain p l k (Rect.quadrants b).2.1 (d + 1)))
      (some (emptyLeaf (Rect.quadrants b).2.2.1 (d + 1)))
      (some (emptyLeaf (Rect.quadrants b).2.2.2 (d + 1))) := by
  simp only [pchain, hw]
  norm_num [quadrantUpperLeft, quadrantUpperRight, quadrantLowerLeft, quadrantLowerRight]

theorem pchain_succ_ll {α : Type} (p : Point) (l : List (TreeEntry α)) (k : ℕ)
    (b : Rect) (d : ℤ) (hw : whichQuadrant b p = quadrantLowerLeft) :
    pchain p l (k + 1) b d = Node.mk b d none
      (some (emptyLeaf (Rect.quadrants b).1 (d + 1)))
      (some (emptyLeaf (Rect.quadrants b).2.1 (d + 1)))
      (some (pchain p l k (Rect.quadrants b).2.2.1 (d + 1)))
      (some (emptyLeaf (Rect.quadrants b).2.2.2 (d + 1))) := by
  simp only [pchain, hw]
  norm_num [quadrantUpperLeft, quadrantUpperRight, quadrantLowerLeft, quadrantLowerRight]

theorem pchain_succ_lr {α : Type} (p : Point) (l : List (TreeEntry α)) (k : ℕ)
    (b : Rect) (d : ℤ) (hw : whichQuadrant b p = quadrantLowerRight) :
    pchain p l (k + 1) b d = Node.mk b d none
      (some (emptyLeaf (Rect.quadrants b).1 (d + 1)))
      (some (emptyLeaf (Rect.quadrants b).2.1 (d + 1)))
      (some (emptyLeaf (Rect.quadrants b).2.2.1 (d + 1)))
      (some (pchain p l k (Rect.quadrants b).2.2.2 (d + 1))) := by
  simp only [pchain, hw]
  norm_num [quadrantUpperLeft, quadrantUpperRight, quadrantLowerLeft, quadrantLowerRight]

theorem pchain_bounds {α : Type} (p : Point) (l : List (TreeEntry α)) (k : ℕ)
    (b : Rect) (d : ℤ) : (pchain p l k b d).bounds = b := by
  cases k <;> rfl

theorem contains_whichQuadrant_child (b : Rect) (p : Point)
    (hp : b.contains p = true) :
    (whichQuadrant b p = quadrantUpperLeft →
      (Rect.quadrants b).1.contains p = true) ∧
    (whichQuadrant b p = quadrantUpperRight →
      (Rect.quadrants b).2.1.contains p = true) ∧
    (whichQuadrant b p = quadrantLowerLeft →
      (Rect.quadrants b).2.2.1.contains p = true) ∧
    (whichQuadrant b p = quadrantLowerRight →
      (Rect.quadrants b).2.2.2.contains p = true) := by
  have h := contains_quadrantRect b p hp
  refine ⟨fun hw => ?_, fun hw => ?_, fun hw => ?_, fun hw => ?_⟩ <;>
    rw [hw] at h
  · rw [quadrantRect_ul] at h; rw [quadrants_explicit]; exact h
  · rw [quadrantRect_ur] at h; rw [quadrants_explicit]; exact h
  · rw [quadrantRect_ll] at h; rw [quadrants_explicit]; exact h
  · rw [quadrantRect_lr] at h; rw [quadrants_explicit]; exact h

theorem addInternal_pchain {α : Type} (D M : ℤ) (hM : 1 ≤ M) (p : Point) :
    ∀ (k fuel : ℕ) (b : Rect) (d : ℤ) (l : List (TreeEntry α)) (e : TreeEntry α),
      e.position = p → b.contains p = true → d + (k : ℤ) = D → k + 1 ≤ fuel →
      addInternal D M fuel (pchain p l k b d) e = pchain p (l ++ [e]) k b d := by
  intro k
  induction k with
  | zero =>
    intro fuel b d l e hep hp hdk hfuel
    cases fuel with
    | zero => omega
    | succ f =>
      rw [pchain_zero, pchain_zero, addInternal_succ]
      rw [if_neg (by rw [hep]; exact whichQuadrant_ne_none b p hp)]
      rw [if_pos (by simp; omega)]
      simp
  | succ k ihk =>
    intro fuel b d l e hep hp hdk hfuel
    cases fuel with
    | zero => omega
    | succ f =>
      have hd1 : (d + 1) + (k : ℤ) = D := by push_cast at hdk ⊢; omega
      have hf1 : k + 1 ≤ f := by omega
      have hch := contains_whichQuadrant_child b p hp
      rcases whichQuadrant_cases b p hp with ⟨hw, -, -⟩ | ⟨hw, -, -⟩ | ⟨hw, -, -⟩ | ⟨hw, -, -⟩
      · -- lower left
        rw [pchain_succ_ll p l k b d hw, addInternal_succ]
        rw [if_neg (by rw [hep, hw]; norm_num [quadrantNone, quadrantLowerLeft])]
        rw [if_neg (by simp)]
        rw [if_neg (show ¬((itemsLen (none : Option (List (TreeEntry α))) : ℤ) ≥ M) by
          simp [itemsLen]; omega)]
        rw [if_neg (by simp)]
        rw [hep, hw]
        rw [if_neg (by norm_num [quadrantLowerLeft, quadrantUpperLeft]),
          if_neg (by norm_num [quadrantLowerLeft, quadrantUpperRight]),
          if_pos rfl]
        simp only [Option.map_some']
        rw [ihk f _ _ l e hep (hch.2.2.1 hw) hd1 hf1]
        rw [pchain_succ_ll p (l ++ [e]) k b d hw]
      · -- upper left
        rw [pchain_succ_ul p l k b d hw, addInternal_succ]
        rw [if_neg (by rw [hep, hw]; norm_num [quadrantNone, quadrantUpperLeft])]
        rw [if_neg (by simp)]
        rw [if_neg (show ¬((itemsLen (none : Option (List (TreeEntry α))) : ℤ) ≥ M) by
          simp [itemsLen]; omega)]
        rw [if_neg (by simp)]
        rw [hep, hw]
        rw [if_pos rfl]
        simp only [Option.map_some']
        rw [ihk f _ _ l e hep (hch.1 hw) hd1 hf1]
        rw [pchain_succ_ul p (l ++ [e]) k b d hw]
      · -- lower right
        rw [pchain_succ_lr p l k b d hw, addInternal_succ]
        rw [if_neg (by rw [hep, hw]; norm_num [quadrantNone, quadrantLowerRight])]
        rw [if_neg (by simp)]
        rw [if_neg (show ¬((itemsLen (none : Option (List (TreeEntry α))) : ℤ) ≥ M) by
          simp [itemsLen]; omega)]
        rw [if_neg (by simp)]
        rw [hep, hw]
        rw [if_neg (by norm_num [quadrantLowerRight, quadrantUpperLeft]),
          if_neg (by norm_num [quadrantLowerRight, quadrantUpperRight]),
          if_neg (by norm_num [quadrantLowerRight, quadrantLowerLeft]),
          if_pos rfl]
        simp only [Option.map_some']
        rw [ihk f _ _ l e hep (hch.2.2.2 hw) hd1 hf1]
        rw [pchain_succ_lr p (l ++ [e]) k b d hw]
      · -- upper right
        rw [pchain_succ_ur p l k b d hw, addInternal_succ]
        rw [if_neg (by rw [hep, hw]; norm_num [quadrantNone, quadrantUpperRight])]
        rw [if_neg (by simp)]
        rw [if_neg (show ¬((itemsLen (none : Option (List (TreeEntry α))) : ℤ) ≥ M) by
          simp [itemsLen]; omega)]
        rw [if_neg (by simp)]
        rw [hep, hw]
        rw [if_neg (by norm_num [quadrantUpperRight, quadrantUpperLeft]),
          if_pos rfl]
        simp only [Option.map_some']
        rw [ihk f _ _ l e hep (hch.2.1 hw) hd1 hf1]
        rw [pchain_succ_ur p (l ++ [e]) k b d hw]

theorem pchain_one_nil {α : Type} (p : Point) (b : Rect) (d : ℤ) :
    pchain p ([] : List (TreeEntry α)) 1 b d = Node.mk b d none
      (some (emptyLeaf (Rect.quadrants b).1 (d + 1)))
      (some (emptyLeaf (Rect.quadrants b).2.1 (d + 1)))
      (some (emptyLeaf (Rect.quadrants b).2.2.1 (d + 1)))
      (some (emptyLeaf (Rect.quadrants b).2.2.2 (d + 1))) := by
  simp only [pchain]
  congr 1 <;> split <;> rfl

theorem addInternal_leaf_append {α : Type} (D M : ℤ) (f : ℕ) (b : Rect) (d : ℤ)
    (l : List (TreeEntry α)) (e : TreeEntry α)
    (hq : whichQuadrant b e.position ≠ quadrantNone)
    (hcap : (l.length : ℤ) < M ∨ d ≥ D) :
    addInternal D M (f + 1) (.mk b d (some l) none none none none) e =
      .mk b d (some (l ++ [e])) none none none none := by
  rw [addInternal_succ, if_neg hq]
  by_cases h2 : (some l : Option (List (TreeEntry α))).isSome ∧ d ≥ D
  · rw [if_pos h2]; simp
  · rw [if_neg h2]
    have hlm : (l.length : ℤ) < M := by
      rcases hcap with h | h
      · exact h
      · exact absurd ⟨by simp, h⟩ h2
    rw [if_neg (show ¬((itemsLen (some l) : ℤ) ≥ M) by simp [itemsLen]; omega)]
    rw [if_pos (by simp : ((some l : Option (List (TreeEntry α))).isSome = true))]
    simp

theorem addInternal_pchain1 {α : Type} (D M : ℤ) (hM : 1 ≤ M) (p : Point)
    (f : ℕ) (b : Rect) (d : ℤ) (l : List (TreeEntry α)) (e : TreeEntry α)
    (hep : e.position = p) (hp : b.contains p = true) (hdD : d + 1 ≤ D)
    (hf : 2 ≤ f)
    (hcap : (l.length : ℤ) < M ∨ d + 1 = D) :
    addInternal D M f (pchain p l 1 b d) e = pchain p (l ++ [e]) 1 b d := by
  obtain ⟨f', rfl⟩ : ∃ f', f = f' + 1 := ⟨f - 1, by omega⟩
  obtain ⟨f'', rfl⟩ : ∃ f'', f' = f'' + 1 := ⟨f' - 1, by omega⟩
  have hch := contains_whichQuadrant_child b p hp
  have hcap' : ∀ d' : ℤ, d' = d + 1 →
      ((l.length : ℤ) < M ∨ d' ≥ D) := by
    intro d' hd'
    rcases hcap with h | h
    · exact Or.inl h
    · exact Or.inr (by omega)
  rcases whichQuadrant_cases b p hp with ⟨hw, -, -⟩ | ⟨hw, -, -⟩ | ⟨hw, -, -⟩ | ⟨hw, -, -⟩
  · -- lower left
    have h1 : pchain p l 1 b d = Node.mk b d none
        (some (emptyLeaf (Rect.quadrants b).1 (d + 1)))
        (some (emptyLeaf (Rect.quadrants b).2.1 (d + 1)))
        (some (pchain p l 0 (Rect.quadrants b).2.2.1 (d + 1)))
        (some (emptyLeaf (Rect.quadrants b).2.2.2 (d + 1))) :=
      pchain_succ_ll p l 0 b d hw
    have h2 : pchain p (l ++ [e]) 1 b d = Node.mk b d none
        (some (emptyLeaf (Rect.quadrants b).1 (d + 1)))
        (some (emptyLeaf (Rect.quadrants b).2.1 (d + 1)))
        (some (pchain p (l ++ [e]) 0 (Rect.quadrants b).2.2.1 (d + 1)))
        (some (emptyLeaf (Rect.quadrants b).2.2.2 (d + 1))) :=
      pchain_succ_ll p (l ++ [e]) 0 b d hw
    rw [h1, h2, addInternal_succ]
    rw [if_neg (by rw [hep, hw]; norm_num [quadrantNone, quadrantLowerLeft])]
    rw [if_neg (by simp)]
    rw [if_neg (show ¬((itemsLen (none : Option (List (TreeEntry α))) : ℤ) ≥ M) by
      simp [itemsLen]; omega)]
    rw [if_neg (by simp)]
    rw [hep, hw]
    rw [if_neg (by norm_num [quadrantLowerLeft, quadrantUpperLeft]),
      if_neg (by norm_num [quadrantLowerLeft, quadrantUpperRight]),
      if_pos rfl]
    simp only [Option.map_some']
    rw [pchain_zero, pchain_zero,
      addInternal_leaf_append D M f'' _ _ l e
        (by rw [hep]; exact whichQuadrant_ne_none _ p (hch.2.2.1 hw))
        (hcap' _ rfl)]
  · -- upper left
    have h1 : pchain p l 1 b d = Node.mk b d none
        (some (pchain p l 0 (Rect.quadrants b).1 (d + 1)))
        (some (emptyLeaf (Rect.quadrants b).2.1 (d + 1)))
        (some (emptyLeaf (Rect.quadrants b).2.2.1 (d + 1)))
        (some (emptyLeaf (Rect.quadrants b).2.2.2 (d + 1))) :=
      pchain_succ_ul p l 0 b d hw
    have h2 : pchain p (l ++ [e]) 1 b d = Node.mk b d none
        (some (pchain p (l ++ [e]) 0 (Rect.quadrants b).1 (d + 1)))
        (some (emptyLeaf (Rect.quadrants b).2.1 (d + 1)))
        (some (emptyLeaf (Rect.quadrants b).2.2.1 (d + 1)))
        (some (emptyLeaf (Rect.quadrants b).2.2.2 (d + 1))) :=
      pchain_succ_ul p (l ++ [e]) 0 b d hw
    rw [h1, h2, addInternal_succ]
    rw [if_neg (by rw [hep, hw]; norm_num [quadrantNone, quadrantUpperLeft])]
    rw [if_neg (by simp)]
    rw [if_neg (show ¬((itemsLen (none : Option (List (TreeEntry α))) : ℤ) ≥ M) by
      simp [itemsLen]; omega)]
    rw [if_neg (by simp)]
    rw [hep, hw]
    rw [if_pos rfl]
    simp only [Option.map_some']
    rw [pchain_zero, pchain_zero,
      addInternal_leaf_append D M f'' _ _ l e
        (by rw [hep]; exact whichQuadrant_ne_none _ p (hch.1 hw))
        (hcap' _ rfl)]
  · -- lower right
    have h1 : pchain p l 1 b d = Node.mk b d none
        (some (emptyLeaf (Rect.quadrants b).1 (d + 1)))
        (some (emptyLeaf (Rect.quadrants b).2.1 (d + 1)))
        (some (emptyLeaf (Rect.quadrants b).2.2.1 (d + 1)))
        (some (pchain p l 0 (Rect.quadrants b).2.2.2 (d + 1))) :=
      pchain_succ_lr p l 0 b d hw
    have h2 : pchain p (l ++ [e]) 1 b d = Node.mk b d none
        (some (emptyLeaf (Rect.quadrants b).1 (d + 1)))
        (some (emptyLeaf (Rect.quadrants b).2.1 (d + 1)))
        (some (emptyLeaf (Rect.quadrants b).2.2.1 (d + 1)))
        (some (pchain p (l ++ [e]) 0 (Rect.quadrants b).2.2.2 (d + 1))) :=
      pchain_succ_lr p (l ++ [e]) 0 b d hw
    rw [h1, h2, addInternal_succ]
    rw [if_neg (by rw [hep, hw]; norm_num [quadrantNone, quadrantLowerRight])]
    rw [if_neg (by simp)]
    rw [if_neg (show ¬((itemsLen (none : Option (List (TreeEntry α))) : ℤ) ≥ M) by
      simp [itemsLen]; omega)]
    rw [if_neg (by simp)]
    rw [hep, hw]
    rw [if_neg (by norm_num [quadrantLowerRight, quadrantUpperLeft]),
      if_neg (by norm_num [quadrantLowerRight, quadrantUpperRight]),
      if_neg (by norm_num [quadrantLowerRight, quadrantLowerLeft]),
      if_pos rfl]
    simp only [Option.map_some']
    rw [pchain_zero, pchain_zero,
      addInternal_leaf_append D M f'' _ _ l e
        (by rw [hep]; exact whichQuadrant_ne_none _ p (hch.2.2.2 hw))
        (hcap' _ rfl)]
  · -- upper right
    have h1 : pchain p l 1 b d = Node.mk b d none
        (some (emptyLeaf (Rect.quadrants b).1 (d + 1)))
        (some (pchain p l 0 (Rect.quadrants b).2.1 (d + 1)))
        (some (emptyLeaf (Rect.quadrants b).2.2.1 (d + 1)))
        (some (emptyLeaf (Rect.quadrants b).2.2.2 (d + 1))) :=
      pchain_succ_ur p l 0 b d hw
    have h2 : pchain p (l ++ [e]) 1 b d = Node.mk b d none
        (some (emptyLeaf (Rect.quadrants b).1 (d + 1)))
        (some (pchain p (l ++ [e]) 0 (Rect.quadrants b).2.1 (d + 1)))
        (some (emptyLeaf (Rect.quadrants b).2.2.1 (d + 1)))
        (some (emptyLeaf (Rect.quadrants b).2.2.2 (d + 1))) :=
      pchain_succ_ur p (l ++ [e]) 0 b d hw
    rw [h1, h2, addInternal_succ]
    rw [if_neg (by rw [hep, hw]; norm_num [quadrantNone, quadrantUpperRight])]
    rw [if_neg (by simp)]
    rw [if_neg (show ¬((itemsLen (none : Option (List (TreeEntry α))) : ℤ) ≥ M) by
      simp [itemsLen]; omega)]
    rw [if_neg (by simp)]
    rw [hep, hw]
    rw [if_neg (by norm_num [quadrantUpperRight, quadrantUpperLeft]),
      if_pos rfl]
    simp only [Option.map_some']
    rw [pchain_zero, pchain_zero,
      addInternal_leaf_append D M f'' _ _ l e
        (by rw [hep]; exact whichQuadrant_ne_none _ p (hch.2.1 hw))
        (hcap' _ rfl)]

theorem foldl_fill {α : Type} (D M : ℤ) (hM : 1 ≤ M) (p : Point) (f : ℕ)
    (b : Rect) (d : ℤ) (hp : b.contains p = true) (hdD : d + 1 ≤ D) (hf : 2 ≤ f) :
    ∀ (l2 l1 : List (TreeEntry α)),
      (∀ i ∈ l2, i.position = p) →
      ((l1.length + l2.length : ℤ) ≤ M ∨ d + 1 = D) →
      l2.foldl (fun m i => addInternal D M f m i) (pchain p l1 1 b d) =
        pchain p (l1 ++ l2) 1 b d := by
  intro l2
  induction l2 with
  | nil => intro l1 _ _; simp
  | cons i t iht =>
    intro l1 hall hcap
    rw [List.foldl_cons]
    rw [addInternal_pchain1 D M hM p f b d l1 i (hall i (by simp)) hp hdD hf
      (by rcases hcap with h | h
          · exact Or.inl (by simp at h; omega)
          · exact Or.inr h)]
    have := iht (l1 ++ [i]) (fun j hj => hall j (by simp [hj]))
      (by rcases hcap with h | h
          · refine Or.inl ?_
            simp at h ⊢
            omega
          · exact Or.inr h)
    rw [this]
    simp

theorem addInternal_full_leaf {α : Type} (D M : ℤ) (hM : 1 ≤ M) (p : Point) :
    ∀ (k fuel : ℕ) (b : Rect) (d : ℤ) (l : List (TreeEntry α)) (e : TreeEntry α),
      1 ≤ k → d + (k : ℤ) = D → (l.length : ℤ) = M →
      (∀ i ∈ l, i.position = p) → e.position = p → b.contains p = true →
      2 * k + 1 ≤ fuel →
      addInternal D M fuel (Node.mk b d (some l) none none none none) e =
        pchain p (l ++ [e]) k b d := by
  intro k
  induction k with
  | zero => intro fuel b d l e h1; omega
  | succ k ihk =>
    intro fuel b d l e hk1 hdk hlen hall hep hp hfuel
    cases fuel with
    | zero => omega
    | succ f =>
      rw [addInternal_succ]
      rw [if_neg (by rw [hep]; exact whichQuadrant_ne_none b p hp)]
      have hdD : d < D := by push_cast at hdk; omega
      rw [if_neg (show ¬((some l : Option (List (TreeEntry α))).isSome ∧ d ≥ D) by
        simp; omega)]
      rw [if_pos (show (itemsLen (some l : Option (List (TreeEntry α))) : ℤ) ≥ M by
        simp [itemsLen]; omega)]
      have hch : ∀ r : Rect,
          newNode (Node.mk b d (some l) none none none none) r =
            emptyLeaf r (d + 1) := fun r => rfl
      simp only [hch, Option.getD_some]
      rw [← pchain_one_nil p b d]
      have hf2 : 2 ≤ f := by omega
      have hd1 : d + 1 ≤ D := by omega
      rw [foldl_fill D M hM p f b d hp hd1 hf2 l [] hall
        (Or.inl (by simp; omega))]
      simp only [List.nil_append]
      by_cases hkz : k = 0
      · subst hkz
        have hdeq : d + 1 = D := by push_cast at hdk; omega
        exact addInternal_pchain1 D M hM p f b d l e hep hp hd1 hf2 (Or.inr hdeq)
      · -- the child itself is full and below max depth: it cascades
        obtain ⟨f', rfl⟩ : ∃ f', f = f' + 1 := ⟨f - 1, by omega⟩
        have hchg := contains_whichQuadrant_child b p hp
        have hd1k : (d + 1) + (k : ℤ) = D := by push_cast at hdk ⊢; omega
        have hfk : 2 * k + 1 ≤ f' := by omega
        have hk1' : 1 ≤ k := by omega
        rcases whichQuadrant_cases b p hp with
          ⟨hw, -, -⟩ | ⟨hw, -, -⟩ | ⟨hw, -, -⟩ | ⟨hw, -, -⟩
        · -- lower left
          have h1 : pchain p l 1 b d = Node.mk b d none
              (some (emptyLeaf (Rect.quadrants b).1 (d + 1)))
              (some (emptyLeaf (Rect.quadrants b).2.1 (d + 1)))
              (some (pchain p l 0 (Rect.quadrants b).2.2.1 (d + 1)))
              (some (emptyLeaf (Rect.quadrants b).2.2.2 (d + 1))) :=
            pchain_succ_ll p l 0 b d hw
          rw [h1, addInternal_succ]
          rw [if_neg (by rw [hep, hw]; norm_num [quadrantNone, quadrantLowerLeft])]
          rw [if_neg (by simp)]
          rw [if_neg (show ¬((itemsLen (none : Option (List (TreeEntry α))) : ℤ) ≥ M) by
            simp [itemsLen]; omega)]
          rw [if_neg (by simp)]
          rw [hep, hw]
          rw [if_neg (by norm_num [quadrantLowerLeft, quadrantUpperLeft]),
            if_neg (by norm_num [quadrantLowerLeft, quadrantUpperRight]),
            if_pos rfl]
          simp only [Option.map_some']
          rw [pchain_zero,
            ihk f' _ _ l e hk1' hd1k hlen hall hep (hchg.2.2.1 hw) hfk]
          exact (pchain_succ_ll p (l ++ [e]) k b d hw).symm
        · -- upper left
          have h1 : pchain p l 1 b d = Node.mk b d none
              (some (pchain p l 0 (Rect.quadrants b).1 (d + 1)))
              (some (emptyLeaf (Rect.quadrants b).2.1 (d + 1)))
              (some (emptyLeaf (Rect.quadrants b).2.2.1 (d + 1)))
              (some (emptyLeaf (Rect.quadrants b).2.2.2 (d + 1))) :=
            pchain_succ_ul p l 0 b d hw
          rw [h1, addInternal_succ]
          rw [if_neg (by rw [hep, hw]; norm_num [quadrantNone, quadrantUpperLeft])]
          rw [if_neg (by simp)]
          rw [if_neg (show ¬((itemsLen (none : Option (List (TreeEntry α))) : ℤ) ≥ M) by
            simp [itemsLen]; omega)]
          rw [if_neg (by simp)]
          rw [hep, hw]
          rw [if_pos rfl]
          simp only [Option.map_some']
          rw [pchain_zero,
            ihk f' _ _ l e hk1' hd1k hlen hall hep (hchg.1 hw) hfk]
          exact (pchain_succ_ul p (l ++ [e]) k b d hw).symm
        · -- lower right
          have h1 : pchain p l 1 b d = Node.mk b d none
              (some (emptyLeaf (Rect.quadrants b).1 (d + 1)))
              (some (emptyLeaf (Rect.quadrants b).2.1 (d + 1)))
              (some (emptyLeaf (Rect.quadrants b).2.2.1 (d + 1)))
              (some (pchain p l 0 (Rect.quadrants b).2.2.2 (d + 1))) :=
            pchain_succ_lr p l 0 b d hw
          rw [h1, addInternal_succ]
          rw [if_neg (by rw [hep, hw]; norm_num [quadrantNone, quadrantLowerRight])]
          rw [if_neg (by simp)]
          rw [if_neg (show ¬((itemsLen (none : Option (List (TreeEntry α))) : ℤ) ≥ M) by
            simp [itemsLen]; omega)]
          rw [if_neg (by simp)]
          rw [hep, hw]
          rw [if_neg (by norm_num [quadrantLowerRight, quadrantUpperLeft]),
            if_neg (by norm_num [quadrantLowerRight, quadrantUpperRight]),
            if_neg (by norm_num [quadrantLowerRight, quadrantLowerLeft]),
            if_pos rfl]
          simp only [Option.map_some']
          rw [pchain_zero,
            ihk f' _ _ l e hk1' hd1k hlen hall hep (hchg.2.2.2 hw) hfk]
          exact (pchain_succ_lr p (l ++ [e]) k b d hw).symm
        · -- upper right
          have h1 : pchain p l 1 b d = Node.mk b d none
              (some (emptyLeaf (Rect.quadrants b).1 (d + 1)))
              (some (pchain p l 0 (Rect.quadrants b).2.1 (d + 1)))
              (some (emptyLeaf (Rect.quadrants b).2.2.1 (d + 1)))
              (some (emptyLeaf (Rect.quadrants b).2.2.2 (d + 1))) :=
            pchain_succ_ur p l 0 b d hw
          rw [h1, addInternal_succ]
          rw [if_neg (by rw [hep, hw]; norm_num [quadrantNone, quadrantUpperRight])]
          rw [if_neg (by simp)]
          rw [if_neg (show ¬((itemsLen (none : Option (List (TreeEntry α))) : ℤ) ≥ M) by
            simp [itemsLen]; omega)]
          rw [if_neg (by simp)]
          rw [hep, hw]
          rw [if_neg (by norm_num [quadrantUpperRight, quadrantUpperLeft]),
            if_pos rfl]
          simp only [Option.map_some']
          rw [pchain_zero,
            ihk f' _ _ l e hk1' hd1k hlen hall hep (hchg.2.1 hw) hfk]
          exact (pchain_succ_ur p (l ++ [e]) k b d hw).symm

theorem entries_pchain {α : Type} (p : Point) (l : List (TreeEntry α)) :
    ∀ (k : ℕ) (b : Rect) (d : ℤ), b.contains p = true →
      entries (pchain p l k b d) = l := by
  intro k
  induction k with
  | zero => intro b d _; rw [pchain_zero, entries_leaf]
  | succ k ihk =>
    intro b d hp
    have hchg := contains_whichQuadrant_child b p hp
    rcases whichQuadrant_cases b p hp with
      ⟨hw, -, -⟩ | ⟨hw, -, -⟩ | ⟨hw, -, -⟩ | ⟨hw, -, -⟩
    · rw [pchain_succ_ll p l k b d hw, entries_internal]
      simp only [entriesO_some]
      rw [ihk _ _ (hchg.2.2.1 hw)]
      simp [emptyLeaf, entries_leaf]
    · rw [pchain_succ_ul p l k b d hw, entries_internal]
      simp only [entriesO_some]
      rw [ihk _ _ (hchg.1 hw)]
      simp [emptyLeaf, entries_leaf]
    · rw [pchain_succ_lr p l k b d hw, entries_internal]
      simp only [entriesO_some]
      rw [ihk _ _ (hchg.2.2.2 hw)]
      simp [emptyLeaf, entries_leaf]
    · rw [pchain_succ_ur p l k b d hw, entries_internal]
      simp only [entriesO_some]
      rw [ihk _ _ (hchg.2.1 hw)]
      simp [emptyLeaf, entries_leaf]

theorem leaf_mem_pchain {α : Type} (p : Point) (l : List (TreeEntry α)) :
    ∀ (k : ℕ) (b : Rect) (d : ℤ), b.contains p = true →
      ∃ lf ∈ leavesList (pchain p l k b d), lf.depth = d + k ∧ lf.items = some l := by
  intro k
  induction k with
  | zero =>
    intro b d _
    rw [pchain_zero, leavesList_leaf]
    refine ⟨Node.mk b d (some l) none none none none, by simp, ?_, rfl⟩
    simp
  | succ k ihk =>
    intro b d hp
    have hchg := contains_whichQuadrant_child b p hp
    rcases whichQuadrant_cases b p hp with
      ⟨hw, -, -⟩ | ⟨hw, -, -⟩ | ⟨hw, -, -⟩ | ⟨hw, -, -⟩
    · rw [pchain_succ_ll p l k b d hw, leavesList_internal]
      obtain ⟨lf, hmem, hd, hit⟩ := ihk _ (d + 1) (hchg.2.2.1 hw)
      refine ⟨lf, ?_, by rw [hd]; push_cast; ring, hit⟩
      simp only [leavesO_some]
      refine List.mem_append.mpr (Or.inl ?_)
      exact List.mem_append.mpr (Or.inr hmem)
    · rw [pchain_succ_ul p l k b d hw, leavesList_internal]
      obtain ⟨lf, hmem, hd, hit⟩ := ihk _ (d + 1) (hchg.1 hw)
      refine ⟨lf, ?_, by rw [hd]; push_cast; ring, hit⟩
      simp only [leavesO_some]
      refine List.mem_append.mpr (Or.inl ?_)
      refine List.mem_append.mpr (Or.inl ?_)
      exact List.mem_append.mpr (Or.inl hmem)
    · rw [pchain_succ_lr p l k b d hw, leavesList_internal]
      obtain ⟨lf, hmem, hd, hit⟩ := ihk _ (d + 1) (hchg.2.2.2 hw)
      refine ⟨lf, ?_, by rw [hd]; push_cast; ring, hit⟩
      simp only [leavesO_some]
      exact List.mem_append.mpr (Or.inr hmem)
    · rw [pchain_succ_ur p l k b d hw, leavesList_internal]
      obtain ⟨lf, hmem, hd, hit⟩ := ihk _ (d + 1) (hchg.2.1 hw)
      refine ⟨lf, ?_, by rw [hd]; push_cast; ring, hit⟩
      simp only [leavesO_some]
      refine List.mem_append.mpr (Or.inl ?_)
      refine List.mem_append.mpr (Or.inl ?_)
      exact List.mem_append.mpr (Or.inr hmem)

theorem add_same_pos_step {α : Type} (D M : ℤ) (hD : 1 ≤ D) (hM : 1 ≤ M)
    (b : Rect) (p : Point) (hp : b.contains p = true)
    (l : List (TreeEntry α)) (hl : ∀ i ∈ l, i.position = p) (sz : ℤ) (a : α) :
    (samePosState D M b p l sz).add a p =
      (samePosState D M b p (l ++ [(⟨p, a⟩ : TreeEntry α)]) (sz + 1), none) := by
  by_cases hcap : (l.length : ℤ) ≤ M
  · rw [samePosState, if_pos hcap]
    unfold Quadtree.add
    rw [if_neg (by simpa using hp)]
    by_cases hlt : (l.length : ℤ) < M
    · -- plain append into the root leaf
      have hfuel : addFuel D = (2 * D.toNat) + 1 := rfl
      have := addInternal_leaf_append (f := 2 * D.toNat) D M b 0 l ⟨p, a⟩
        (whichQuadrant_ne_none b p hp) (Or.inl hlt)
      dsimp only
      rw [hfuel, this]
      rw [samePosState, if_pos (by simp; omega)]
    · -- the leaf is exactly full: it cascades to a full-depth chain
      have hlen : (l.length : ℤ) = M := by omega
      have hk1 : 1 ≤ D.toNat := by omega
      have hdk : (0 : ℤ) + (D.toNat : ℤ) = D := by omega
      have := addInternal_full_leaf D M hM p D.toNat (addFuel D) b 0 l ⟨p, a⟩
        hk1 hdk hlen hl rfl hp (by simp [addFuel])
      dsimp only
      rw [this]
      rw [samePosState, if_neg (by simp; omega)]
  · rw [samePosState, if_neg hcap]
    unfold Quadtree.add
    rw [if_neg (by simp only [Quadtree.root]; rw [pchain_bounds]; simpa using hp)]
    have hk1 : (0 : ℤ) + (D.toNat : ℤ) = D := by omega
    have hstep := addInternal_pchain D M hM p D.toNat (addFuel D) b 0 l ⟨p, a⟩
      rfl hp hk1 (by simp [addFuel]; omega)
    dsimp only
    rw [hstep]
    rw [samePosState, if_neg (by simp at hcap ⊢; omega)]

theorem applyAll_same_pos {α : Type} (D M : ℤ) (hD : 1 ≤ D) (hM : 1 ≤ M)
    (b : Rect) (p : Point) (hp : b.contains p = true) :
    ∀ (ds : List α) (l : List (TreeEntry α)) (sz : ℤ),
      (∀ i ∈ l, i.position = p) →
      applyAll (samePosState D M b p l sz) (ds.map (fun a => (a, p))) =
        samePosState D M b p (l ++ ds.map (fun a => (⟨p, a⟩ : TreeEntry α)))
          (sz + ds.length) := by
  intro ds
  induction ds with
  | nil => intro l sz _; simp [applyAll]
  | cons a t iht =>
    intro l sz hl
    simp only [List.map_cons, applyAll, List.foldl_cons]
    rw [show ((samePosState D M b p l sz).add a p).1 =
        samePosState D M b p (l ++ [(⟨p, a⟩ : TreeEntry α)]) (sz + 1) by
      rw [add_same_pos_step D M hD hM b p hp l hl sz a]]
    have := iht (l ++ [(⟨p, a⟩ : TreeEntry α)]) (sz + 1)
      (by intro i hi
          rcases List.mem_append.mp hi with h | h
          · exact hl i h
          · simp at h; subst h; rfl)
    unfold applyAll at this
    rw [this]
    simp [List.append_assoc]
    ring_nf

/-- C6.  Inserting strictly more than `maxItemsPerNode` entries, all at one
in-bounds position, terminates (the fixed recursion budget
`2*maxDepth + 1` that `Add` hands to `addInternal` is proven sufficient:
the splitting cascade stops at depth `maxDepth` and the exact resulting
tree is computed) and produces a tree in which all those entries sit
together, in insertion order, in a single leaf at depth `maxDepth`, with
no entry anywhere else in the tree. -/
theorem same_position_saturates_leaf {α : Type} (bounds : Rect) (D M : ℤ)
    (qt0 : Quadtree α) (p : Point) (ds : List α)
    (hnew : NewQuadtree bounds D M = .ok qt0)
    (hp : bounds.contains p = true)
    (hcount : M < (ds.length : ℤ)) :
    ∃ lf ∈ leavesList (applyAll qt0 (ds.map (fun a => (a, p)))).root,
      lf.depth = D ∧
      lf.items = some (ds.map (fun a => (⟨p, a⟩ : TreeEntry α))) ∧
      entries (applyAll qt0 (ds.map (fun a => (a, p)))).root =
        ds.map (fun a => (⟨p, a⟩ : TreeEntry α)) := by
  unfold NewQuadtree at hnew
  split_ifs at hnew with h1 h2
  cases hnew
  have hD : 1 ≤ D := by omega
  have hM : 1 ≤ M := by omega
  have heq : (⟨D, M, Node.mk bounds 0 (some []) none none none none, 0⟩ : Quadtree α) =
      samePosState D M bounds p [] 0 := by
    rw [samePosState, if_pos (by simp; omega)]
  rw [heq, applyAll_same_pos D M hD hM bounds p hp ds [] 0 (by simp)]
  rw [List.nil_append]
  rw [samePosState, if_neg (by simp; omega)]
  have hfinal := leaf_mem_pchain p (ds.map (fun a => (⟨p, a⟩ : TreeEntry α)))
    D.toNat bounds 0 hp
  obtain ⟨lf, hmem, hd, hit⟩ := hfinal
  refine ⟨lf, hmem, ?_, hit, ?_⟩
  · rw [hd]; omega
  · exact entries_pchain p _ D.toNat bounds 0 hp

/-- Witness for C6: the repository test scenario — six payloads at `(1,1)`
in a `maxDepth = 2`, `maxItemsPerNode = 2` tree over `(0,0)×(5,5)` all land
in one leaf at depth 2. -/
theorem same_position_saturates_leaf_witness :
    ∃ lf ∈ leavesList (applyAll
        (⟨2, 2, Node.mk ⟨0, 0, 5, 5⟩ 0 (some []) none none none none, 0⟩ : Quadtree ℕ)
        ([1, 2, 3, 4, 5, 6].map (fun a => (a, (⟨1, 1⟩ : Point))))).root,
      lf.depth = 2 ∧
      lf.items = some ([1, 2, 3, 4, 5, 6].map (fun a => (⟨⟨1, 1⟩, a⟩ : TreeEntry ℕ))) ∧
      entries (applyAll
        (⟨2, 2, Node.mk ⟨0, 0, 5, 5⟩ 0 (some []) none none none none, 0⟩ : Quadtree ℕ)
        ([1, 2, 3, 4, 5, 6].map (fun a => (a, (⟨1, 1⟩ : Point))))).root =
        [1, 2, 3, 4, 5, 6].map (fun a => (⟨⟨1, 1⟩, a⟩ : TreeEntry ℕ)) :=
  same_position_saturates_leaf ⟨0, 0, 5, 5⟩ 2 2 _ ⟨1, 1⟩ [1, 2, 3, 4, 5, 6] rfl
    (by norm_num [Rect.contains]) (by norm_num)

end Goquadtree
